import Mathlib

/-!
Verification of the tree-state engine of the todo application (main.go).

The Go program keeps a flattened pre-order encoding of a forest in a slice
of items, derives a visible projection from collapse flags, edits the
structure (insert, delete-to-trash, restore, indent, toggle flags) and
serializes to an indentation-tagged line format.  Every definition below is
translated directly from the corresponding Go function; machine integers of
the source are modelled by Nat (all the quantities involved are provably
non-negative in the source: levels, cursors, lengths).
-/

set_option maxHeartbeats 1000000

namespace Todo

/-- Task node, from the Go struct item (main.go lines 82-87). -/
structure Item where
  title : String
  done : Bool
  level : Nat
  collapsed : Bool
deriving DecidableEq, Repr

/-- Zero value of item, standing in for the Go zero value. -/
def dummyItem : Item := { title := "", done := false, level := 0, collapsed := false }

/-- Skip test of recalcVisible: currentCollapseLevel is -1 (none) or a level;
an item is skipped when a collapse level is set and the item level is
strictly greater (main.go lines 169-175). -/
def skipCheck (cl : Option Nat) (lvl : Nat) : Bool :=
  match cl with
  | some c => decide (c < lvl)
  | none => false

/-- Collapse level resulting from processing one item in recalcVisible:
kept on skip, otherwise cleared and re-set when the emitted item is
collapsed (main.go lines 169-181). -/
def nextCl (cl : Option Nat) (it : Item) : Option Nat :=
  if skipCheck cl it.level then cl
  else if it.collapsed then some it.level else none

/-- Loop body of recalcVisible (main.go lines 164-183): walk the items with
the running currentCollapseLevel, emitting pairs of source index and item. -/
def recalcVisibleAux (cl : Option Nat) (i : Nat) : List Item → List (Nat × Item)
  | [] => []
  | it :: rest =>
    if skipCheck cl it.level then recalcVisibleAux cl (i + 1) rest
    else (i, it) :: recalcVisibleAux (if it.collapsed then some it.level else none) (i + 1) rest

/-- The visible projection computed by recalcVisible from the item store. -/
def visibleOf (items : List Item) : List (Nat × Item) :=
  recalcVisibleAux none 0 items

/-- Specification-side hiding predicate, decidable by construction: an item
of level lvl appended after the prefix pre is hidden exactly when some
earlier item a of pre is collapsed, every item after a inside pre has level
strictly greater than the level of a, and lvl is strictly greater than the
level of a.  In forest terms: the item is a transitive descendant of a
collapsed item. -/
def hiddenPreB : List Item → Nat → Bool
  | [], _ => false
  | a :: rest, lvl =>
    (a.collapsed && decide (a.level < lvl) && rest.all (fun b => decide (a.level < b.level)))
      || hiddenPreB rest lvl

/-- Propositional form of hiddenPreB, phrased through an explicit split of
the prefix. -/
def HiddenPre (pre : List Item) (lvl : Nat) : Prop :=
  ∃ xs a ys, pre = xs ++ a :: ys ∧ a.collapsed = true
    ∧ (∀ b ∈ ys, a.level < b.level) ∧ a.level < lvl

theorem hiddenPreB_iff (pre : List Item) (lvl : Nat) :
    hiddenPreB pre lvl = true ↔ HiddenPre pre lvl := by
  induction pre with
  | nil =>
    simp [hiddenPreB, HiddenPre]
  | cons a rest ih =>
    simp only [hiddenPreB, Bool.or_eq_true, Bool.and_eq_true, List.all_eq_true,
      decide_eq_true_eq, ih]
    constructor
    · rintro (⟨⟨hc, hlt⟩, hall⟩ | ⟨xs, b, ys, hsplit, hc, hall, hlt⟩)
      · exact ⟨[], a, rest, rfl, hc, hall, hlt⟩
      · exact ⟨a :: xs, b, ys, by rw [hsplit]; rfl, hc, hall, hlt⟩
    · rintro ⟨xs, b, ys, hsplit, hc, hall, hlt⟩
      cases xs with
      | nil =>
        simp only [List.nil_append, List.cons.injEq] at hsplit
        obtain ⟨rfl, rfl⟩ := hsplit
        exact Or.inl ⟨⟨hc, hlt⟩, hall⟩
      | cons x xs =>
        simp only [List.cons_append, List.cons.injEq] at hsplit
        obtain ⟨rfl, hsplit⟩ := hsplit
        exact Or.inr ⟨xs, b, ys, hsplit, hc, hall, hlt⟩

/-- Appending an item to the prefix rewrites the hiding test: the new item
hides when it is itself collapsed, and an older item keeps hiding exactly
when it also hides the appended item. -/
theorem hiddenPreB_append (pre : List Item) (it : Item) (lvl : Nat) :
    hiddenPreB (pre ++ [it]) lvl
      = ((it.collapsed && decide (it.level < lvl)) || hiddenPreB pre (min it.level lvl)) := by
  induction pre with
  | nil =>
    simp [hiddenPreB]
  | cons a rest ih =>
    rw [List.cons_append]
    show ((a.collapsed && decide (a.level < lvl) && (rest ++ [it]).all (fun b => decide (a.level < b.level)))
      || hiddenPreB (rest ++ [it]) lvl) = _
    rw [ih, List.all_append]
    show _ = ((it.collapsed && decide (it.level < lvl)) ||
      ((a.collapsed && decide (a.level < min it.level lvl) && rest.all (fun b => decide (a.level < b.level)))
        || hiddenPreB rest (min it.level lvl)))
    have hmin : decide (a.level < min it.level lvl)
        = (decide (a.level < it.level) && decide (a.level < lvl)) := by
      by_cases h1 : a.level < it.level <;> by_cases h2 : a.level < lvl <;>
        simp [h1, h2, Nat.lt_min]
    rw [hmin]
    simp only [List.all_cons, List.all_nil, Bool.and_true]
    generalize a.collapsed = ca
    generalize it.collapsed = ci
    generalize decide (a.level < it.level) = d1
    generalize decide (a.level < lvl) = d2
    generalize decide (it.level < lvl) = d3
    generalize rest.all (fun b => decide (a.level < b.level)) = ra
    generalize hiddenPreB rest (min it.level lvl) = h
    cases ca <;> cases ci <;> cases d1 <;> cases d2 <;> cases d3 <;> cases ra <;> cases h <;> rfl

/-- Invariant tying the running currentCollapseLevel to the processed
prefix: the skip test agrees with the specification hiding test at every
level. -/
def ClInv (pre : List Item) (cl : Option Nat) : Prop :=
  ∀ lvl : Nat, skipCheck cl lvl = hiddenPreB pre lvl

theorem clInv_nil : ClInv [] none := by
  intro lvl; rfl

theorem clInv_step {pre : List Item} {cl : Option Nat} (h : ClInv pre cl) (it : Item) :
    ClInv (pre ++ [it]) (nextCl cl it) := by
  intro lvl
  rw [hiddenPreB_append, ← h (min it.level lvl)]
  unfold nextCl
  cases cl with
  | none =>
    have hskip : skipCheck none it.level = false := rfl
    rw [hskip, if_neg (by simp)]
    cases hci : it.collapsed <;> simp [skipCheck, Nat.lt_min]
  | some c =>
    by_cases hlt : c < it.level
    · have hskip : skipCheck (some c) it.level = true := by simp [skipCheck, hlt]
      rw [hskip, if_pos rfl]
      have hmin : decide (c < min it.level lvl) = decide (c < lvl) := by
        by_cases h1 : c < lvl <;> simp [Nat.lt_min, h1] <;> omega
      show decide (c < lvl) = (it.collapsed && decide (it.level < lvl) || skipCheck (some c) (min it.level lvl))
      simp only [skipCheck, hmin]
      cases hci : it.collapsed
      · simp
      · simp only [Bool.true_and]
        by_cases h1 : c < lvl <;> by_cases h2 : it.level < lvl <;> simp [h1, h2] <;> omega
    · have hskip : skipCheck (some c) it.level = false := by simp [skipCheck, hlt]
      rw [hskip, if_neg (by simp)]
      have hmin : skipCheck (some c) (min it.level lvl) = false := by
        simp only [skipCheck, decide_eq_false_iff_not, Nat.lt_min, not_and]
        omega
      rw [hmin, Bool.or_false]
      cases hci : it.collapsed <;> simp [skipCheck]

theorem take_succ_of_drop_cons {items : List Item} {n : Nat} {it : Item} {rest : List Item}
    (h : items.drop n = it :: rest) :
    items.take (n + 1) = items.take n ++ [it] := by
  have h2 : items.take (n + 1) = items.take n ++ (items.drop n).take 1 := by
    rw [List.take_add]
  rw [h2, h]
  rfl

theorem drop_succ_of_drop_cons {items : List Item} {n : Nat} {it : Item} {rest : List Item}
    (h : items.drop n = it :: rest) :
    items.drop (n + 1) = rest := by
  have h2 : List.drop 1 (items.drop n) = rest := by rw [h]; rfl
  rwa [List.drop_drop] at h2

/-- Main lemma for the projection: starting from a state consistent with the
processed prefix, the loop of recalcVisible filters the remaining items by
the specification hiding test, keeping source indices. -/
theorem recalcVisibleAux_eq_filter (items : List Item) :
    ∀ (suf : List Item) (n : Nat) (cl : Option Nat),
      items.drop n = suf → ClInv (items.take n) cl →
      recalcVisibleAux cl n suf
        = (List.enumFrom n suf).filter (fun p => !hiddenPreB (items.take p.1) p.2.level) := by
  intro suf
  induction suf with
  | nil => intro n cl _ _; rfl
  | cons it rest ih =>
    intro n cl hdrop hinv
    have htake : items.take (n + 1) = items.take n ++ [it] := take_succ_of_drop_cons hdrop
    have hdrop' : items.drop (n + 1) = rest := drop_succ_of_drop_cons hdrop
    have hinv' : ClInv (items.take (n + 1)) (nextCl cl it) := by
      rw [htake]; exact clInv_step hinv it
    have hcond : skipCheck cl it.level = hiddenPreB (items.take n) it.level := hinv it.level
    simp only [recalcVisibleAux, List.enumFrom, List.filter]
    by_cases hskip : skipCheck cl it.level
    · have hnext : nextCl cl it = cl := by simp [nextCl, hskip]
      rw [if_pos hskip]
      have : hiddenPreB (items.take n) it.level = true := by rw [← hcond]; exact hskip
      simp only [this, Bool.not_true]
      rw [ih (n + 1) cl hdrop' (by rw [hnext] at hinv'; exact hinv')]
    · have hnext : nextCl cl it = if it.collapsed then some it.level else none := by
        simp [nextCl, hskip]
      rw [if_neg hskip]
      have : hiddenPreB (items.take n) it.level = false := by
        rw [← hcond]; exact Bool.of_not_eq_true hskip
      simp only [this, Bool.not_false]
      rw [ih (n + 1) (if it.collapsed then some it.level else none) hdrop'
        (by rw [hnext] at hinv'; exact hinv')]

theorem hiddenPreB_of_no_collapse {pre : List Item} (h : ∀ a ∈ pre, a.collapsed = false)
    (lvl : Nat) : hiddenPreB pre lvl = false := by
  induction pre with
  | nil => rfl
  | cons a rest ih =>
    simp only [hiddenPreB, Bool.or_eq_false_iff]
    constructor
    · simp [h a (List.mem_cons_self a rest)]
    · exact ih (fun b hb => h b (List.mem_cons_of_mem a hb))

theorem mem_enumFrom_mem {α : Type} {l : List α} {n : Nat} {p : Nat × α}
    (h : p ∈ List.enumFrom n l) : p.2 ∈ l := by
  induction l generalizing n with
  | nil => cases h
  | cons a rest ih =>
    have h2 : p = (n, a) ∨ p ∈ List.enumFrom (n + 1) rest := by
      simpa [List.enumFrom] using h
    rcases h2 with rfl | h2
    · exact List.mem_cons_self a rest
    · exact List.mem_cons_of_mem a (ih h2)

/-- C1.  The visibility projection recalcVisible emits, in order and with
correct source indices, exactly the items that are not hidden; an item is
hidden exactly when it is a (transitive) descendant of a collapsed item,
as expressed by hiddenPreB on the prefix before it.  When no item is
collapsed the projection is the full enumeration of the store. -/
theorem recalcVisible_projection (items : List Item) :
    visibleOf items
      = items.enum.filter (fun p => !hiddenPreB (items.take p.1) p.2.level)
    ∧ ((∀ a ∈ items, a.collapsed = false) → visibleOf items = items.enum) := by
  have hmain : visibleOf items
      = items.enum.filter (fun p => !hiddenPreB (items.take p.1) p.2.level) := by
    unfold visibleOf
    rw [recalcVisibleAux_eq_filter items items 0 none rfl clInv_nil]
    rfl
  refine ⟨hmain, fun hnc => ?_⟩
  rw [hmain]
  apply List.filter_eq_self.mpr
  intro p hp
  have : p.2 ∈ items := mem_enumFrom_mem hp
  rw [hiddenPreB_of_no_collapse (fun a ha => hnc a (List.take_subset p.1 items ha)) p.2.level]
  rfl

/-- Example forest of spec section 8 with node A collapsed. -/
def exForestA : List Item :=
  [{ title := "A", done := false, level := 0, collapsed := true },
   { title := "B", done := false, level := 1, collapsed := false },
   { title := "C", done := false, level := 1, collapsed := false },
   { title := "D", done := false, level := 0, collapsed := false }]

/-- Example forest with no collapsed node. -/
def exForestB : List Item :=
  [{ title := "A", done := false, level := 0, collapsed := false },
   { title := "B", done := false, level := 1, collapsed := false }]

/-- Witness for C1: evaluation of the projection theorem on a concrete
forest with a collapsed node (scenario of spec section 8: collapsing A
leaves A and D visible, with source indices 0 and 3). -/
theorem recalcVisible_projection_witness :
    visibleOf exForestA
      = [(0, { title := "A", done := false, level := 0, collapsed := true }),
         (3, { title := "D", done := false, level := 0, collapsed := false })]
    ∧ visibleOf exForestB = exForestB.enum := by
  constructor
  · rw [(recalcVisible_projection exForestA).1]
    decide
  · exact (recalcVisible_projection exForestB).2 (by decide)

/-- Running collapse level after processing a list of items in the
recalcVisible loop. -/
def clAfter (cl : Option Nat) : List Item → Option Nat
  | [] => cl
  | it :: rest => clAfter (nextCl cl it) rest

theorem recalcVisibleAux_append (xs ys : List Item) :
    ∀ (cl : Option Nat) (i : Nat),
    recalcVisibleAux cl i (xs ++ ys)
      = recalcVisibleAux cl i xs ++ recalcVisibleAux (clAfter cl xs) (i + xs.length) ys := by
  induction xs with
  | nil => intro cl i; simp [recalcVisibleAux, clAfter]
  | cons it rest ih =>
    intro cl i
    have harith : i + (it :: rest).length = (i + 1) + rest.length := by
      simp [List.length_cons]; omega
    rw [List.cons_append]
    show (if skipCheck cl it.level then recalcVisibleAux cl (i + 1) (rest ++ ys)
      else (i, it) :: recalcVisibleAux (if it.collapsed then some it.level else none) (i + 1) (rest ++ ys)) = _
    by_cases hskip : skipCheck cl it.level
    · have hnext : nextCl cl it = cl := by simp [nextCl, hskip]
      rw [if_pos hskip, ih cl (i + 1)]
      show _ = (if skipCheck cl it.level then recalcVisibleAux cl (i + 1) rest
        else (i, it) :: recalcVisibleAux (if it.collapsed then some it.level else none) (i + 1) rest)
          ++ recalcVisibleAux (clAfter (nextCl cl it) rest) (i + (it :: rest).length) ys
      rw [if_pos hskip, hnext, harith]
    · have hnext : nextCl cl it = if it.collapsed then some it.level else none := by
        simp [nextCl, hskip]
      rw [if_neg hskip, ih _ (i + 1)]
      show _ = (if skipCheck cl it.level then recalcVisibleAux cl (i + 1) rest
        else (i, it) :: recalcVisibleAux (if it.collapsed then some it.level else none) (i + 1) rest)
          ++ recalcVisibleAux (clAfter (nextCl cl it) rest) (i + (it :: rest).length) ys
      rw [if_neg hskip, hnext, harith, List.cons_append]

theorem recalcVisibleAux_fst_bounds (xs : List Item) :
    ∀ (cl : Option Nat) (i : Nat) (p : Nat × Item), p ∈ recalcVisibleAux cl i xs →
      i ≤ p.1 ∧ p.1 < i + xs.length := by
  induction xs with
  | nil => intro cl i p hp; cases hp
  | cons it rest ih =>
    intro cl i p hp
    rw [show recalcVisibleAux cl i (it :: rest)
        = (if skipCheck cl it.level then recalcVisibleAux cl (i + 1) rest
          else (i, it) :: recalcVisibleAux (if it.collapsed then some it.level else none) (i + 1) rest)
      from rfl] at hp
    by_cases hskip : skipCheck cl it.level
    · rw [if_pos hskip] at hp
      have := ih cl (i + 1) p hp
      simp only [List.length_cons]
      omega
    · rw [if_neg hskip] at hp
      rcases List.mem_cons.mp hp with rfl | hp

      · simp only [List.length_cons]
        omega
      · have := ih _ (i + 1) p hp
        simp only [List.length_cons]
        omega

theorem recalcVisibleAux_pairs (xs : List Item) :
    ∀ (cl : Option Nat) (i : Nat) (p : Nat × Item), p ∈ recalcVisibleAux cl i xs →
      xs[p.1 - i]? = some p.2 := by
  induction xs with
  | nil => intro cl i p hp; cases hp
  | cons it rest ih =>
    intro cl i p hp
    rw [show recalcVisibleAux cl i (it :: rest)
        = (if skipCheck cl it.level then recalcVisibleAux cl (i + 1) rest
          else (i, it) :: recalcVisibleAux (if it.collapsed then some it.level else none) (i + 1) rest)
      from rfl] at hp
    by_cases hskip : skipCheck cl it.level
    · rw [if_pos hskip] at hp
      have hb := recalcVisibleAux_fst_bounds rest cl (i + 1) p hp
      have := ih cl (i + 1) p hp
      have hsub : p.1 - i = (p.1 - (i + 1)) + 1 := by omega
      rw [hsub]
      simpa using this
    · rw [if_neg hskip] at hp
      rcases List.mem_cons.mp hp with rfl | hp
      · simp
      · have hb := recalcVisibleAux_fst_bounds rest _ (i + 1) p hp
        have := ih _ (i + 1) p hp
        have hsub : p.1 - i = (p.1 - (i + 1)) + 1 := by omega
        rw [hsub]
        simpa using this

theorem visibleOf_pairs {items : List Item} {p : Nat × Item}
    (hp : p ∈ visibleOf items) : items[p.1]? = some p.2 := by
  have := recalcVisibleAux_pairs items none 0 p hp
  simpa using this

theorem visibleOf_index_lt {items : List Item} {p : Nat × Item}
    (hp : p ∈ visibleOf items) : p.1 < items.length := by
  have := visibleOf_pairs hp
  exact (List.getElem?_eq_some.mp this).1

/-- Number of immediately-following nodes with level strictly greater than
the level of the node at realIdx: the loop of the delete branch
(main.go lines 361-370). -/
def descendantCount (items : List Item) (realIdx : Nat) : Nat :=
  match items[realIdx]? with
  | none => 0
  | some cur =>
    ((items.drop (realIdx + 1)).takeWhile (fun a => decide (cur.level < a.level))).length

/-- Delete branch of updateMain (main.go lines 359-384), structural part:
remove the contiguous block starting at realIdx whose size is one plus the
descendant count, and append that block to the trash. -/
def deleteSubtree (items trash : List Item) (realIdx : Nat) : List Item × List Item :=
  match items[realIdx]? with
  | none => (items, trash)
  | some _ =>
    let countToDelete := 1 + descendantCount items realIdx
    (items.take realIdx ++ items.drop (realIdx + countToDelete),
     trash ++ (items.drop realIdx).take countToDelete)

theorem takeWhile_length_le {α : Type} (p : α → Bool) (l : List α) :
    (l.takeWhile p).length ≤ l.length := by
  induction l with
  | nil => simp
  | cons x xs ih =>
    rw [List.takeWhile_cons]
    by_cases hp : p x <;> simp [hp] <;> omega

theorem takeWhile_index {α : Type} (p : α → Bool) (l : List α) :
    ∀ i, i < (l.takeWhile p).length → ∃ a, l[i]? = some a ∧ p a = true := by
  induction l with
  | nil => intro i h; simp at h
  | cons x xs ih =>
    intro i h
    rw [List.takeWhile_cons] at h
    by_cases hp : p x
    · rw [if_pos hp] at h
      cases i with
      | zero => exact ⟨x, by simp, hp⟩
      | succ j =>
        simp only [List.length_cons, Nat.succ_lt_succ_iff] at h
        simpa using ih j h
    · rw [if_neg hp] at h
      simp at h

theorem takeWhile_stop {α : Type} (p : α → Bool) (l : List α) :
    l[(l.takeWhile p).length]? = none
      ∨ ∃ a, l[(l.takeWhile p).length]? = some a ∧ p a = false := by
  induction l with
  | nil => exact Or.inl rfl
  | cons x xs ih =>
    rw [List.takeWhile_cons]
    by_cases hp : p x
    · rw [if_pos hp]
      simp only [List.length_cons]
      rcases ih with h | ⟨a, ha, hpa⟩
      · exact Or.inl (by simpa using h)
      · exact Or.inr ⟨a, by simpa using ha, hpa⟩
    · rw [if_neg hp]
      exact Or.inr ⟨x, by simp, by simpa using hp⟩

/-- C2.  Deleting at a valid realIndex whose node has k descendants, where
k is the descendant count computed by the source loop, removes exactly the
k+1 contiguous entries starting at realIndex from the items, appends
exactly that block, in order, to the end of the trash, and leaves the items
before and after the block unchanged; the count is characterized by the
claim wording: every one of the k immediately-following nodes has level
strictly greater than the deleted node, and the run is maximal. -/
theorem deleteSubtree_spec (items trash : List Item) (realIdx : Nat) (cur : Item)
    (hr : items[realIdx]? = some cur) :
    (deleteSubtree items trash realIdx).1
        = items.take realIdx ++ items.drop (realIdx + (1 + descendantCount items realIdx))
    ∧ (deleteSubtree items trash realIdx).2
        = trash ++ (items.drop realIdx).take (1 + descendantCount items realIdx)
    ∧ ((items.drop realIdx).take (1 + descendantCount items realIdx)).length
        = 1 + descendantCount items realIdx
    ∧ (∀ j, 1 ≤ j → j ≤ descendantCount items realIdx →
        ∃ a, items[realIdx + j]? = some a ∧ cur.level < a.level)
    ∧ (items[realIdx + (1 + descendantCount items realIdx)]? = none
        ∨ ∃ a, items[realIdx + (1 + descendantCount items realIdx)]? = some a
            ∧ a.level ≤ cur.level) := by
  have hlt : realIdx < items.length := (List.getElem?_eq_some.mp hr).1
  have hkdef : descendantCount items realIdx
      = ((items.drop (realIdx + 1)).takeWhile (fun a => decide (cur.level < a.level))).length := by
    unfold descendantCount
    rw [hr]
  have hkle : descendantCount items realIdx ≤ items.length - (realIdx + 1) := by
    rw [hkdef]
    have := takeWhile_length_le (fun a => decide (cur.level < a.level)) (items.drop (realIdx + 1))
    simpa using this
  refine ⟨?_, ?_, ?_, ?_, ?_⟩
  · unfold deleteSubtree
    rw [hr]
  · unfold deleteSubtree
    rw [hr]
  · rw [List.length_take, List.length_drop]
    omega
  · intro j hj1 hjk
    have hidx : j - 1 < ((items.drop (realIdx + 1)).takeWhile
        (fun a => decide (cur.level < a.level))).length := by
      rw [← hkdef]; omega
    obtain ⟨a, ha, hpa⟩ := takeWhile_index _ (items.drop (realIdx + 1)) (j - 1) hidx
    rw [List.getElem?_drop] at ha
    refine ⟨a, ?_, by simpa using hpa⟩
    rw [show realIdx + j = realIdx + 1 + (j - 1) by omega]
    exact ha
  · rcases takeWhile_stop (fun a => decide (cur.level < a.level)) (items.drop (realIdx + 1))
      with h | ⟨a, ha, hpa⟩
    · left
      rw [List.getElem?_drop, ← hkdef] at h
      rw [show realIdx + (1 + descendantCount items realIdx)
        = realIdx + 1 + descendantCount items realIdx by omega]
      exact h
    · right
      rw [List.getElem?_drop, ← hkdef] at ha
      refine ⟨a, ?_, ?_⟩
      · rw [show realIdx + (1 + descendantCount items realIdx)
          = realIdx + 1 + descendantCount items realIdx by omega]
        exact ha
      · simpa using hpa

/-- Witness for C2: the scenario of spec section 8: deleting A (two
descendants B and C) from the forest leaves only D and sends A, B, C to the
trash in order. -/
theorem deleteSubtree_spec_witness :
    (deleteSubtree exForestA [] 0).1
        = [{ title := "D", done := false, level := 0, collapsed := false }]
    ∧ (deleteSubtree exForestA [] 0).2
        = [{ title := "A", done := false, level := 0, collapsed := true },
           { title := "B", done := false, level := 1, collapsed := false },
           { title := "C", done := false, level := 1, collapsed := false }]
    ∧ descendantCount exForestA 0 = 2 := by
  have h := deleteSubtree_spec exForestA [] 0
    { title := "A", done := false, level := 0, collapsed := true } (by decide)
  refine ⟨?_, ?_, by decide⟩
  · rw [h.1]; decide
  · rw [h.2.1]; decide

/-! Persistence codec (main.go lines 995-1061).  The file content is a list
of characters; lines are produced by bufio.Scanner, which splits on the
newline character, drops a carriage return right before it, and never
yields a final empty line for a newline-terminated input. -/

/-- Whitespace test of strings.TrimSpace, i.e. unicode.IsSpace: true
exactly on the White_Space code points 9-13, 32, 133, 160, 0x1680,
0x2000-0x200A, 0x2028, 0x2029, 0x202F, 0x205F and 0x3000. -/
def goIsSpace (c : Char) : Bool :=
  c = ' ' || c = '\t' || c = '\n' || c.toNat = 11 || c.toNat = 12 || c = '\r'
    || c.toNat = 133 || c.toNat = 160 || c.toNat = 0x1680
    || (0x2000 ≤ c.toNat && c.toNat ≤ 0x200A)
    || c.toNat = 0x2028 || c.toNat = 0x2029
    || c.toNat = 0x202F || c.toNat = 0x205F || c.toNat = 0x3000

/-- Model of strings.TrimSpace on character lists. -/
def trimSpace (l : List Char) : List Char :=
  ((l.dropWhile goIsSpace).reverse.dropWhile goIsSpace).reverse

/-- Model of strings.HasPrefix on character lists. -/
def startsWith : List Char → List Char → Bool
  | _, [] => true
  | [], _ :: _ => false
  | c :: cs, d :: ds => c == d && startsWith cs ds

/-- Model of strings.Contains on character lists. -/
def containsStr : List Char → List Char → Bool
  | [], sub => sub.isEmpty
  | c :: cs, sub => startsWith (c :: cs) sub || containsStr cs sub

/-- The three marker substrings used by loadTodo. -/
def bPat : List Char := ['-', ' ', '[']

def xPat : List Char := ['-', ' ', '[', 'x', ']']

def dPat : List Char := ['-', ' ', '[', 'D', ']']

/-- Characters after the first closing bracket of the line, as computed by
strings.SplitN(line, closing bracket, 2): none when the line has no
closing bracket (then len(parts) is 1 and loadTodo skips the line). -/
def afterBracket : List Char → Option (List Char)
  | [] => none
  | c :: cs => if c = ']' then some cs else afterBracket cs

/-- Drop one trailing carriage return, as bufio.ScanLines does. -/
def dropCR (l : List Char) : List Char :=
  match l.getLast? with
  | some c => if c = '\r' then l.dropLast else l
  | none => l

def splitLinesAux (acc : List Char) : List Char → List (List Char)
  | [] => [dropCR acc.reverse]
  | c :: cs =>
    if c = '\n' then dropCR acc.reverse :: (if cs.isEmpty then [] else splitLinesAux [] cs)
    else splitLinesAux (c :: acc) cs

/-- The lines produced by bufio.Scanner on the given content when every
line fits the scanner buffer; the buffer cap is modelled by scanTokens. -/
def splitLines (l : List Char) : List (List Char) :=
  if l.isEmpty then [] else splitLinesAux [] l

def splitRawAux (acc : List Char) : List Char → List (List Char)
  | [] => [acc.reverse]
  | c :: cs =>
    if c = '\n' then acc.reverse :: (if cs.isEmpty then [] else splitRawAux [] cs)
    else splitRawAux (c :: acc) cs

/-- The raw newline-delimited segments of the content, before ScanLines
drops a trailing carriage return. -/
def splitRaw (l : List Char) : List (List Char) :=
  if l.isEmpty then [] else splitRawAux [] l

/-- Byte length of a character in UTF-8, the encoding Go strings use. -/
def utf8Bytes (c : Char) : Nat :=
  if c.toNat < 128 then 1 else if c.toNat < 2048 then 2
  else if c.toNat < 65536 then 3 else 4

/-- Byte length of a character list in UTF-8. -/
def utf8Len (l : List Char) : Nat := (l.map utf8Bytes).sum

/-- bufio.MaxScanTokenSize, the buffer limit of a default bufio.Scanner. -/
def maxScanTokenSize : Nat := 65536

/-- The tokens bufio.Scanner delivers to the loadTodo loop.  The scanner
buffer grows only to maxScanTokenSize bytes, so a raw line is tokenized
exactly when it and its newline fit in the buffer, i.e. when the line is
at most 65535 bytes (the final unterminated line obeys the same bound,
the file reader reporting end of file on a separate read); at the first
longer line Scan sets ErrTooLong and returns false, ending the loop right
there — loadTodo never reads scanner.Err() — so that line and everything
after it are dropped.  Each delivered token then has one trailing
carriage return removed by ScanLines. -/
def scanTokens (content : List Char) : List (List Char) :=
  ((splitRaw content).takeWhile (fun l => decide (utf8Len l < maxScanTokenSize))).map dropCR

/-- Parsing of one line by the loop body of loadTodo (main.go lines
1007-1033): the Bool is the trash marker test.  Returns none when the line
is skipped. -/
def parseLine (line : List Char) : Option (Bool × Item) :=
  if startsWith (trimSpace line) bPat then
    match afterBracket line with
    | some rest =>
      some (containsStr line dPat,
        { title := String.mk (trimSpace rest),
          done := containsStr line xPat,
          level := (line.takeWhile (fun c => c = ' ')).length / 2,
          collapsed := false })
    | none => none
  else none

/-- loadTodo (main.go lines 995-1037) on a file content: accumulate parsed
lines into the active and trash sequences. -/
def loadFold (acc : List Item × List Item) (lines : List (List Char)) : List Item × List Item :=
  lines.foldl
    (fun acc line =>
      match parseLine line with
      | some (true, it) => (acc.1, acc.2 ++ [it])
      | some (false, it) => (acc.1 ++ [it], acc.2)
      | none => acc)
    acc

def loadTodo (content : List Char) : List Item × List Item :=
  loadFold ([], []) (scanTokens content)

/-- One output line of saveTodo without its trailing newline:
two spaces per level, the bracketed status character, a space, the title. -/
def renderLine (it : Item) (status : Char) : List Char :=
  List.replicate (2 * it.level) ' ' ++ ['-', ' ', '[', status, ']', ' '] ++ it.title.data

/-- Status character written by saveTodo for an active item. -/
def doneChar (it : Item) : Char := if it.done then 'x' else ' '

/-- saveTodo (main.go lines 1039-1061): active items first with status
space or x, then the trash with status D, each line newline-terminated. -/
def saveTodo (items trash : List Item) : List Char :=
  (items.map (fun it => renderLine it (doneChar it) ++ ['\n'])).flatten
    ++ (trash.map (fun it => renderLine it 'D' ++ ['\n'])).flatten

/-- Projection of an item to the data the file format can represent. -/
def triple (it : Item) : String × Bool × Nat := (it.title, it.done, it.level)

/-- C9.  The loader marks a line done exactly when the substring
consisting of dash, space, open bracket, x, close bracket occurs anywhere
in the raw line; in particular a not-done line whose title contains that
substring loads with done = true. -/
theorem loadTodo_done_iff_contains :
    (∀ (line : List Char) (b : Bool) (it : Item),
      parseLine line = some (b, it) → it.done = containsStr line xPat)
    ∧ parseLine ("- [ ] a - [x] b".data)
        = some (false, { title := "a - [x] b", done := true, level := 0, collapsed := false }) := by
  constructor
  · intro line b it h
    unfold parseLine at h
    by_cases hs : startsWith (trimSpace line) bPat
    · rw [if_pos hs] at h
      cases hab : afterBracket line with
      | none => rw [hab] at h; exact absurd h (by simp)
      | some rest =>
        rw [hab] at h
        simp only [Option.some.injEq, Prod.mk.injEq] at h
        rw [← h.2]
    · rw [if_neg hs] at h; exact absurd h (by simp)
  · decide

/-- Witness for C9: the general half evaluated at a concrete line whose
status character is x. -/
theorem loadTodo_done_iff_contains_witness :
    ({ title := "a", done := true, level := 0, collapsed := false } : Item).done
      = containsStr ("- [x] a".data) xPat := by
  have h := loadTodo_done_iff_contains.1 ("- [x] a".data) false
    { title := "a", done := true, level := 0, collapsed := false } (by decide)
  exact h

/-- Active item whose title contains the done marker as a substring. -/
def exBadActive : List Item :=
  [{ title := "a - [x] b", done := false, level := 0, collapsed := false }]

/-- Trash item carrying a done flag. -/
def exBadTrash : List Item :=
  [{ title := "c", done := true, level := 0, collapsed := false }]

/-- Counterexample for C3: the round trip does not reproduce the
(title, done, level) triples: an active not-done item whose title contains
the done marker loads back as done, and a done trash item loads back as
not done (the file format has no done field for trash entries). -/
theorem loadTodo_saveTodo_not_round_trip :
    ¬ ((loadTodo (saveTodo exBadActive exBadTrash)).1.map triple = exBadActive.map triple
      ∧ (loadTodo (saveTodo exBadActive exBadTrash)).2.map triple = exBadTrash.map triple) := by
  decide

/-- Titles the file format can carry faithfully: no newline, no leading or
trailing whitespace, and not containing the done or trash marker
substrings. -/
def goodTitle (t : List Char) : Bool :=
  t.all (fun c => decide (c ≠ '\n'))
    && (match t.head? with | some c => !goIsSpace c | none => true)
    && (match t.getLast? with | some c => !goIsSpace c | none => true)
    && !containsStr t xPat && !containsStr t dPat

theorem goodTitle_no_newline {t : List Char} (h : goodTitle t = true) :
    ∀ c ∈ t, c ≠ '\n' := by
  unfold goodTitle at h
  simp only [Bool.and_eq_true, List.all_eq_true, decide_eq_true_eq] at h
  exact h.1.1.1.1

theorem goodTitle_head {t : List Char} (h : goodTitle t = true) :
    ∀ c, t.head? = some c → goIsSpace c = false := by
  unfold goodTitle at h
  simp only [Bool.and_eq_true] at h
  have h2 := h.1.1.1.2
  intro c hc
  rw [hc] at h2
  simpa using h2

theorem goodTitle_last {t : List Char} (h : goodTitle t = true) :
    ∀ c, t.getLast? = some c → goIsSpace c = false := by
  unfold goodTitle at h
  simp only [Bool.and_eq_true] at h
  have h2 := h.1.1.2
  intro c hc
  rw [hc] at h2
  simpa using h2

theorem goodTitle_xPat {t : List Char} (h : goodTitle t = true) :
    containsStr t xPat = false := by
  unfold goodTitle at h
  simp only [Bool.and_eq_true, Bool.not_eq_true'] at h
  exact h.1.2

theorem goodTitle_dPat {t : List Char} (h : goodTitle t = true) :
    containsStr t dPat = false := by
  unfold goodTitle at h
  simp only [Bool.and_eq_true, Bool.not_eq_true'] at h
  exact h.2

theorem dropWhile_eq_self_of_head {p : Char → Bool} {l : List Char}
    (h : ∀ c, l.head? = some c → p c = false) : l.dropWhile p = l := by
  cases l with
  | nil => rfl
  | cons c cs =>
    rw [List.dropWhile_cons, h c rfl]
    simp

theorem trimSpace_eq_self {t : List Char}
    (h1 : ∀ c, t.head? = some c → goIsSpace c = false)
    (h2 : ∀ c, t.getLast? = some c → goIsSpace c = false) :
    trimSpace t = t := by
  unfold trimSpace
  rw [dropWhile_eq_self_of_head h1]
  rw [dropWhile_eq_self_of_head (fun c hc => h2 c (by rwa [List.head?_reverse] at hc))]
  exact List.reverse_reverse t

theorem trimSpace_space_cons {t : List Char}
    (h1 : ∀ c, t.head? = some c → goIsSpace c = false)
    (h2 : ∀ c, t.getLast? = some c → goIsSpace c = false) :
    trimSpace (' ' :: t) = t := by
  unfold trimSpace
  have hdrop : (' ' :: t).dropWhile goIsSpace = t.dropWhile goIsSpace := by
    rw [List.dropWhile_cons]
    simp [goIsSpace]
  rw [hdrop, dropWhile_eq_self_of_head h1]
  rw [dropWhile_eq_self_of_head (fun c hc => h2 c (by rwa [List.head?_reverse] at hc))]
  exact List.reverse_reverse t

theorem dropWhile_replicate_space (n : Nat) (l : List Char) :
    (List.replicate n ' ' ++ l).dropWhile goIsSpace = l.dropWhile goIsSpace := by
  induction n with
  | zero => rfl
  | succ m ih =>
    rw [List.replicate_succ, List.cons_append, List.dropWhile_cons]
    simp only [goIsSpace]
    simpa using ih

theorem dropWhile_append_of_exists {p : Char → Bool} {xs : List Char} (ys : List Char)
    (h : ∃ c ∈ xs, p c = false) :
    (xs ++ ys).dropWhile p = xs.dropWhile p ++ ys := by
  induction xs with
  | nil => obtain ⟨c, hc, -⟩ := h; cases hc
  | cons x l ih =>
    rw [List.cons_append, List.dropWhile_cons, List.dropWhile_cons]
    by_cases hx : p x
    · rw [if_pos hx, if_pos hx]
      apply ih
      obtain ⟨c, hc, hpc⟩ := h
      rcases List.mem_cons.mp hc with rfl | hc
      · rw [hx] at hpc; cases hpc
      · exact ⟨c, hc, hpc⟩
    · rw [if_neg hx, if_neg hx, List.cons_append]

theorem dropCR_eq_self {l : List Char} (h : ∀ c, l.getLast? = some c → c ≠ '\r') :
    dropCR l = l := by
  unfold dropCR
  cases hl : l.getLast? with
  | none => rfl
  | some c =>
    show (if c = '\r' then l.dropLast else l) = l
    rw [if_neg (h c hl)]

theorem splitLinesAux_block (body : List Char) :
    ∀ (acc rest : List Char), (∀ c ∈ body, c ≠ '\n') →
    splitLinesAux acc (body ++ '\n' :: rest)
      = dropCR (acc.reverse ++ body) :: (if rest.isEmpty then [] else splitLinesAux [] rest) := by
  induction body with
  | nil =>
    intro acc rest _
    rw [List.nil_append]
    show (if ('\n' : Char) = '\n' then
        dropCR acc.reverse :: (if rest.isEmpty then [] else splitLinesAux [] rest)
      else splitLinesAux ('\n' :: acc) rest) = _
    rw [if_pos rfl, List.append_nil]
  | cons c cs ih =>
    intro acc rest h
    have hc : c ≠ '\n' := h c (List.mem_cons_self c cs)
    rw [List.cons_append]
    show (if c = '\n' then
        dropCR acc.reverse :: (if (cs ++ '\n' :: rest).isEmpty then [] else splitLinesAux [] (cs ++ '\n' :: rest))
      else splitLinesAux (c :: acc) (cs ++ '\n' :: rest)) = _
    rw [if_neg hc, ih (c :: acc) rest (fun d hd => h d (List.mem_cons_of_mem c hd))]
    simp [List.append_assoc]

theorem splitLines_flatten (bodies : List (List Char))
    (h : ∀ b ∈ bodies, (∀ c ∈ b, c ≠ '\n') ∧ dropCR b = b) :
    splitLines ((bodies.map (fun b => b ++ ['\n'])).flatten) = bodies := by
  induction bodies with
  | nil => rfl
  | cons b bs ih =>
    obtain ⟨hb, hbcr⟩ := h b (List.mem_cons_self b bs)
    have hrec : splitLines ((bs.map (fun b => b ++ ['\n'])).flatten) = bs :=
      ih (fun x hx => h x (List.mem_cons_of_mem b hx))
    rw [List.map_cons, List.flatten_cons]
    have hassoc : (b ++ ['\n']) ++ (bs.map (fun b => b ++ ['\n'])).flatten
        = b ++ '\n' :: (bs.map (fun b => b ++ ['\n'])).flatten := by
      simp [List.append_assoc]
    rw [hassoc]
    unfold splitLines
    have hne : (b ++ '\n' :: (bs.map (fun b => b ++ ['\n'])).flatten).isEmpty = false := by
      cases b <;> rfl
    rw [if_neg (by simp [hne])]
    rw [splitLinesAux_block b [] _ hb]
    rw [List.reverse_nil, List.nil_append, hbcr]
    unfold splitLines at hrec
    by_cases hemp : ((bs.map (fun b => b ++ ['\n'])).flatten).isEmpty
    · rw [if_pos hemp]
      rw [if_pos (by simpa using hemp)] at hrec
      rw [← hrec]
    · rw [if_neg hemp]
      rw [if_neg (by simpa using hemp)] at hrec
      rw [hrec]

theorem splitRawAux_map_dropCR : ∀ (l acc : List Char),
    (splitRawAux acc l).map dropCR = splitLinesAux acc l := by
  intro l
  induction l with
  | nil => intro acc; rfl
  | cons c cs ih =>
    intro acc
    show ((if c = '\n' then acc.reverse :: (if cs.isEmpty then [] else splitRawAux [] cs)
        else splitRawAux (c :: acc) cs).map dropCR)
      = (if c = '\n' then dropCR acc.reverse :: (if cs.isEmpty then [] else splitLinesAux [] cs)
        else splitLinesAux (c :: acc) cs)
    by_cases hc : c = '\n'
    · rw [if_pos hc, if_pos hc, List.map_cons]
      by_cases hemp : cs.isEmpty
      · rw [if_pos hemp, if_pos hemp]
        rfl
      · rw [if_neg hemp, if_neg hemp, ih []]
    · rw [if_neg hc, if_neg hc, ih (c :: acc)]

theorem takeWhile_of_all {α : Type} {p : α → Bool} :
    ∀ {l : List α}, (∀ x ∈ l, p x = true) → l.takeWhile p = l := by
  intro l
  induction l with
  | nil => intro _; rfl
  | cons x xs ih =>
    intro h
    rw [List.takeWhile_cons, if_pos (h x (List.mem_cons_self x xs))]
    rw [ih (fun y hy => h y (List.mem_cons_of_mem x hy))]

theorem scanTokens_eq_splitLines (l : List Char)
    (h : ∀ b ∈ splitRaw l, utf8Len b < maxScanTokenSize) :
    scanTokens l = splitLines l := by
  unfold scanTokens splitLines splitRaw
  by_cases hemp : l.isEmpty
  · rw [if_pos hemp, if_pos hemp]
    rfl
  · rw [if_neg hemp, if_neg hemp]
    have hall : ∀ b ∈ splitRawAux [] l, decide (utf8Len b < maxScanTokenSize) = true := by
      intro b hb
      rw [decide_eq_true_eq]
      refine h b ?_
      unfold splitRaw
      rw [if_neg hemp]
      exact hb
    rw [takeWhile_of_all hall]
    exact splitRawAux_map_dropCR l []

theorem splitRawAux_block (body : List Char) :
    ∀ (acc rest : List Char), (∀ c ∈ body, c ≠ '\n') →
    splitRawAux acc (body ++ '\n' :: rest)
      = (acc.reverse ++ body) :: (if rest.isEmpty then [] else splitRawAux [] rest) := by
  induction body with
  | nil =>
    intro acc rest _
    rw [List.nil_append]
    show (if ('\n' : Char) = '\n' then
        acc.reverse :: (if rest.isEmpty then [] else splitRawAux [] rest)
      else splitRawAux ('\n' :: acc) rest) = _
    rw [if_pos rfl, List.append_nil]
  | cons c cs ih =>
    intro acc rest h
    have hc : c ≠ '\n' := h c (List.mem_cons_self c cs)
    rw [List.cons_append]
    show (if c = '\n' then
        acc.reverse :: (if (cs ++ '\n' :: rest).isEmpty then [] else splitRawAux [] (cs ++ '\n' :: rest))
      else splitRawAux (c :: acc) (cs ++ '\n' :: rest)) = _
    rw [if_neg hc, ih (c :: acc) rest (fun d hd => h d (List.mem_cons_of_mem c hd))]
    simp [List.append_assoc]

theorem splitRaw_flatten (bodies : List (List Char))
    (h : ∀ b ∈ bodies, ∀ c ∈ b, c ≠ '\n') :
    splitRaw ((bodies.map (fun b => b ++ ['\n'])).flatten) = bodies := by
  induction bodies with
  | nil => rfl
  | cons b bs ih =>
    have hb := h b (List.mem_cons_self b bs)
    have hrec : splitRaw ((bs.map (fun b => b ++ ['\n'])).flatten) = bs :=
      ih (fun x hx => h x (List.mem_cons_of_mem b hx))
    rw [List.map_cons, List.flatten_cons]
    have hassoc : (b ++ ['\n']) ++ (bs.map (fun b => b ++ ['\n'])).flatten
        = b ++ '\n' :: (bs.map (fun b => b ++ ['\n'])).flatten := by
      simp [List.append_assoc]
    rw [hassoc]
    unfold splitRaw
    have hne : (b ++ '\n' :: (bs.map (fun b => b ++ ['\n'])).flatten).isEmpty = false := by
      cases b <;> rfl
    rw [if_neg (by simp [hne])]
    rw [splitRawAux_block b [] _ hb]
    rw [List.reverse_nil, List.nil_append]
    unfold splitRaw at hrec
    by_cases hemp : ((bs.map (fun b => b ++ ['\n'])).flatten).isEmpty
    · rw [if_pos hemp]
      rw [if_pos (by simpa using hemp)] at hrec
      rw [← hrec]
    · rw [if_neg hemp]
      rw [if_neg (by simpa using hemp)] at hrec
      rw [hrec]

/-- On newline-terminated blocks whose bodies all fit the scanner buffer,
the capped scanner recovers exactly the bodies. -/
theorem scanTokens_flatten (bodies : List (List Char))
    (h : ∀ b ∈ bodies, (∀ c ∈ b, c ≠ '\n') ∧ dropCR b = b ∧ utf8Len b < maxScanTokenSize) :
    scanTokens ((bodies.map (fun b => b ++ ['\n'])).flatten) = bodies := by
  rw [scanTokens_eq_splitLines]
  · exact splitLines_flatten bodies (fun b hb => ⟨(h b hb).1, (h b hb).2.1⟩)
  · intro b hb
    rw [splitRaw_flatten bodies (fun x hx => (h x hx).1)] at hb
    exact (h b hb).2.2

theorem containsStr_cons (c : Char) (cs sub : List Char) :
    containsStr (c :: cs) sub = (startsWith (c :: cs) sub || containsStr cs sub) := rfl

theorem containsStr_replicate_space (n : Nat) (l : List Char) (d : Char) (ps : List Char)
    (hd : d ≠ ' ') :
    containsStr (List.replicate n ' ' ++ l) (d :: ps) = containsStr l (d :: ps) := by
  induction n with
  | zero => rfl
  | succ m ih =>
    rw [List.replicate_succ, List.cons_append, containsStr_cons]
    have hsw : startsWith (' ' :: (List.replicate m ' ' ++ l)) (d :: ps) = false := by
      show ((' ' == d) && startsWith (List.replicate m ' ' ++ l) ps) = false
      have h2 : (' ' == d) = false := by
        rw [beq_eq_false_iff_ne]
        exact fun h => hd h.symm
      rw [h2, Bool.false_and]
    rw [hsw, Bool.false_or, ih]

theorem containsStr_marker (st pc : Char) (t : List Char) (hst : (st == '-') = false) :
    containsStr ('-' :: ' ' :: '[' :: st :: ']' :: ' ' :: t) ['-', ' ', '[', pc, ']']
      = ((st == pc) || containsStr t ['-', ' ', '[', pc, ']']) := by
  simp only [containsStr_cons, startsWith, containsStr]
  simp [hst]

theorem afterBracket_spaces_marker (n : Nat) (st : Char) (t : List Char) (hst : st ≠ ']') :
    afterBracket (List.replicate n ' ' ++ ('-' :: ' ' :: '[' :: st :: ']' :: ' ' :: t))
      = some (' ' :: t) := by
  induction n with
  | zero =>
    show afterBracket ('-' :: ' ' :: '[' :: st :: ']' :: ' ' :: t) = some (' ' :: t)
    simp [afterBracket, hst]
  | succ m ih =>
    rw [List.replicate_succ, List.cons_append]
    show afterBracket (' ' :: (List.replicate m ' ' ++ ('-' :: ' ' :: '[' :: st :: ']' :: ' ' :: t)))
      = some (' ' :: t)
    rw [show afterBracket (' ' :: (List.replicate m ' ' ++ ('-' :: ' ' :: '[' :: st :: ']' :: ' ' :: t)))
        = afterBracket (List.replicate m ' ' ++ ('-' :: ' ' :: '[' :: st :: ']' :: ' ' :: t)) from by
      simp [afterBracket]]
    exact ih

theorem length_takeWhile_spaces (n : Nat) (c0 : Char) (l : List Char) (h : c0 ≠ ' ') :
    ((List.replicate n ' ' ++ c0 :: l).takeWhile (fun c => c = ' ')).length = n := by
  induction n with
  | zero =>
    show ((c0 :: l).takeWhile (fun c => c = ' ')).length = 0
    rw [List.takeWhile_cons]
    simp [h]
  | succ m ih =>
    rw [List.replicate_succ, List.cons_append, List.takeWhile_cons]
    rw [if_pos (by decide)]
    rw [List.length_cons, ih]

theorem trimSpace_renderLine (it : Item) (st : Char) :
    ∃ tail, trimSpace (renderLine it st) = '-' :: ' ' :: '[' :: tail := by
  unfold trimSpace renderLine
  rw [show List.replicate (2 * it.level) ' ' ++ ['-', ' ', '[', st, ']', ' '] ++ it.title.data
      = List.replicate (2 * it.level) ' ' ++ ('-' :: ' ' :: '[' :: st :: ']' :: ' ' :: it.title.data) from by
    simp]
  rw [dropWhile_replicate_space]
  have hhead : ('-' :: ' ' :: '[' :: st :: ']' :: ' ' :: it.title.data).dropWhile goIsSpace
      = '-' :: ' ' :: '[' :: st :: ']' :: ' ' :: it.title.data := by
    rw [List.dropWhile_cons]
    rw [show goIsSpace '-' = false from by decide]
    simp
  rw [hhead]
  have hrev : ('-' :: ' ' :: '[' :: (st :: ']' :: ' ' :: it.title.data)).reverse
      = (st :: ']' :: ' ' :: it.title.data).reverse ++ ['[', ' ', '-'] := by
    simp
  rw [hrev]
  rw [dropWhile_append_of_exists _
    ⟨']', by simp, by decide⟩]
  refine ⟨((st :: ']' :: ' ' :: it.title.data).reverse.dropWhile goIsSpace).reverse, ?_⟩
  simp

theorem string_mk_data (s : String) : String.mk s.data = s := by
  cases s
  rfl

/-- Parsing one saved line recovers the written title, level, the done flag
through the status character, and classifies the line by the trash
character. -/
theorem parseLine_renderLine (it : Item) (st : Char)
    (hst : st = ' ' ∨ st = 'x' ∨ st = 'D') (hg : goodTitle it.title.data = true) :
    parseLine (renderLine it st)
      = some ((st == 'D'),
        { title := it.title, done := (st == 'x'), level := it.level, collapsed := false }) := by
  have hstne : st ≠ ']' := by rcases hst with rfl | rfl | rfl <;> decide
  have hstdash : (st == '-') = false := by rcases hst with rfl | rfl | rfl <;> decide
  have hline : renderLine it st
      = List.replicate (2 * it.level) ' ' ++ ('-' :: ' ' :: '[' :: st :: ']' :: ' ' :: it.title.data) := by
    unfold renderLine
    simp
  have hcd : containsStr (renderLine it st) dPat = (st == 'D') := by
    rw [hline]
    rw [show dPat = '-' :: [' ', '[', 'D', ']'] from rfl]
    rw [containsStr_replicate_space _ _ _ _ (by decide)]
    rw [show ('-' :: [' ', '[', 'D', ']']) = ['-', ' ', '[', 'D', ']'] from rfl]
    rw [containsStr_marker st 'D' it.title.data hstdash]
    rw [show (['-', ' ', '[', 'D', ']'] : List Char) = dPat from rfl]
    rw [goodTitle_dPat hg, Bool.or_false]
  have hcx : containsStr (renderLine it st) xPat = (st == 'x') := by
    rw [hline]
    rw [show xPat = '-' :: [' ', '[', 'x', ']'] from rfl]
    rw [containsStr_replicate_space _ _ _ _ (by decide)]
    rw [show ('-' :: [' ', '[', 'x', ']']) = ['-', ' ', '[', 'x', ']'] from rfl]
    rw [containsStr_marker st 'x' it.title.data hstdash]
    rw [show (['-', ' ', '[', 'x', ']'] : List Char) = xPat from rfl]
    rw [goodTitle_xPat hg, Bool.or_false]
  have hab : afterBracket (renderLine it st) = some (' ' :: it.title.data) := by
    rw [hline]
    exact afterBracket_spaces_marker _ st _ hstne
  have hlvl : ((renderLine it st).takeWhile (fun c => c = ' ')).length / 2 = it.level := by
    rw [hline, length_takeWhile_spaces _ _ _ (by decide)]
    omega
  have htitle : String.mk (trimSpace (' ' :: it.title.data)) = it.title := by
    rw [trimSpace_space_cons (goodTitle_head hg) (goodTitle_last hg)]
  obtain ⟨tail, htrim⟩ := trimSpace_renderLine it st
  unfold parseLine
  rw [htrim]
  rw [if_pos (by simp [startsWith, bPat])]
  rw [hab]
  rw [hcd, hcx, hlvl]
  show some ((st == 'D'),
      ({ title := String.mk (trimSpace (' ' :: it.title.data)), done := (st == 'x'),
         level := it.level, collapsed := false } : Item))
    = some ((st == 'D'),
      ({ title := it.title, done := (st == 'x'), level := it.level, collapsed := false } : Item))
  rw [htitle]

/-- The item reconstructed by loadTodo from a saved line of the given item:
the collapsed flag is always reset to false. -/
def reloaded (it : Item) (d : Bool) : Item :=
  { title := it.title, done := d, level := it.level, collapsed := false }

theorem renderLine_no_newline {it : Item} {st : Char} (hst : st ≠ '\n')
    (ht : ∀ c ∈ it.title.data, c ≠ '\n') : ∀ c ∈ renderLine it st, c ≠ '\n' := by
  intro c hc
  unfold renderLine at hc
  rcases List.mem_append.mp hc with h | h
  · rcases List.mem_append.mp h with h1 | h1
    · have := List.eq_of_mem_replicate h1
      subst this
      decide
    · simp only [List.mem_cons, List.not_mem_nil, or_false] at h1
      rcases h1 with rfl | rfl | rfl | rfl | rfl | rfl
      · decide
      · decide
      · decide
      · exact hst
      · decide
      · decide
  · exact ht c h

theorem getLast?_renderLine (it : Item) (st : Char) :
    (renderLine it st).getLast? = it.title.data.getLast?.or (some ' ') := by
  unfold renderLine
  rw [List.getLast?_append, List.getLast?_append]
  cases hl : it.title.data.getLast? <;> rfl

theorem dropCR_renderLine {it : Item} {st : Char}
    (hlast : ∀ c, it.title.data.getLast? = some c → goIsSpace c = false) :
    dropCR (renderLine it st) = renderLine it st := by
  apply dropCR_eq_self
  intro c hc
  rw [getLast?_renderLine] at hc
  cases hl : it.title.data.getLast? with
  | some c0 =>
    rw [hl] at hc
    have hc0 : c0 = c := by
      simpa [Option.or] using hc
    have h2 := hlast c0 hl
    rw [← hc0]
    intro heq
    rw [heq] at h2
    exact absurd h2 (by decide)
  | none =>
    rw [hl] at hc
    have hc0 : ' ' = c := by
      simpa [Option.or] using hc
    rw [← hc0]
    decide

theorem loadFold_append (acc : List Item × List Item) (l1 l2 : List (List Char)) :
    loadFold acc (l1 ++ l2) = loadFold (loadFold acc l1) l2 := by
  unfold loadFold
  exact List.foldl_append _ _ _ _

theorem doneChar_ne_trash (it : Item) : (doneChar it == 'D') = false := by
  unfold doneChar
  cases hd : it.done <;> decide

theorem doneChar_eq_done (it : Item) : (doneChar it == 'x') = it.done := by
  unfold doneChar
  cases hd : it.done <;> decide

theorem loadFold_active (items : List Item) :
    ∀ acc, (∀ it ∈ items, goodTitle it.title.data = true) →
    loadFold acc (items.map (fun it => renderLine it (doneChar it)))
      = (acc.1 ++ items.map (fun it => reloaded it it.done), acc.2) := by
  induction items with
  | nil => intro acc _; simp [loadFold]
  | cons it rest ih =>
    intro acc h
    have hgood := h it (List.mem_cons_self it rest)
    have hstatus : doneChar it = ' ' ∨ doneChar it = 'x' ∨ doneChar it = 'D' := by
      unfold doneChar
      cases it.done <;> simp
    have hparse := parseLine_renderLine it (doneChar it) hstatus hgood
    rw [doneChar_ne_trash, doneChar_eq_done] at hparse
    rw [List.map_cons]
    show loadFold
      (match parseLine (renderLine it (doneChar it)) with
        | some (true, x) => (acc.1, acc.2 ++ [x])
        | some (false, x) => (acc.1 ++ [x], acc.2)
        | none => acc)
      (rest.map (fun it => renderLine it (doneChar it))) = _
    rw [hparse]
    show loadFold (acc.1 ++ [reloaded it it.done], acc.2)
      (rest.map (fun it => renderLine it (doneChar it))) = _
    rw [ih _ (fun x hx => h x (List.mem_cons_of_mem it hx))]
    simp

theorem loadFold_trash (trash : List Item) :
    ∀ acc, (∀ it ∈ trash, goodTitle it.title.data = true) →
    loadFold acc (trash.map (fun it => renderLine it 'D'))
      = (acc.1, acc.2 ++ trash.map (fun it => reloaded it false)) := by
  induction trash with
  | nil => intro acc _; simp [loadFold]
  | cons it rest ih =>
    intro acc h
    have hgood := h it (List.mem_cons_self it rest)
    have hparse := parseLine_renderLine it 'D' (Or.inr (Or.inr rfl)) hgood
    rw [List.map_cons]
    show loadFold
      (match parseLine (renderLine it 'D') with
        | some (true, x) => (acc.1, acc.2 ++ [x])
        | some (false, x) => (acc.1 ++ [x], acc.2)
        | none => acc)
      (rest.map (fun it => renderLine it 'D')) = _
    rw [hparse]
    show loadFold (acc.1, acc.2 ++ [reloaded it false])
      (rest.map (fun it => renderLine it 'D')) = _
    rw [ih _ (fun x hx => h x (List.mem_cons_of_mem it hx))]
    simp

/-- C3 (amended).  For titles the format can carry (no newline, no leading
or trailing White_Space character, no occurrence of the done or trash
markers) whose rendered lines fit the 64 KB scanner buffer, and trash
entries whose done flag is false, the round trip through saveTodo and
loadTodo reproduces the (title, done, level) triples in order for both the
active and the trash sets. -/
theorem saveTodo_loadTodo_round_trip (items trash : List Item)
    (ha : ∀ it ∈ items, goodTitle it.title.data = true
      ∧ utf8Len (renderLine it (doneChar it)) < maxScanTokenSize)
    (htr : ∀ it ∈ trash, goodTitle it.title.data = true ∧ it.done = false
      ∧ utf8Len (renderLine it 'D') < maxScanTokenSize) :
    (loadTodo (saveTodo items trash)).1.map triple = items.map triple
    ∧ (loadTodo (saveTodo items trash)).2.map triple = trash.map triple := by
  have hbodies : saveTodo items trash
      = (((items.map (fun it => renderLine it (doneChar it)))
          ++ (trash.map (fun it => renderLine it 'D'))).map (fun b => b ++ ['\n'])).flatten := by
    unfold saveTodo
    rw [List.map_append, List.flatten_append, List.map_map, List.map_map]
    rfl
  have hsplit : scanTokens (saveTodo items trash)
      = (items.map (fun it => renderLine it (doneChar it)))
        ++ (trash.map (fun it => renderLine it 'D')) := by
    rw [hbodies]
    apply scanTokens_flatten
    intro b hb
    rcases List.mem_append.mp hb with hb | hb
    · obtain ⟨it, hit, rfl⟩ := List.mem_map.mp hb
      have hgood := (ha it hit).1
      refine ⟨renderLine_no_newline ?_ (goodTitle_no_newline hgood),
        dropCR_renderLine (goodTitle_last hgood), (ha it hit).2⟩
      unfold doneChar
      cases it.done <;> decide
    · obtain ⟨it, hit, rfl⟩ := List.mem_map.mp hb
      have hgood := (htr it hit).1
      exact ⟨renderLine_no_newline (by decide) (goodTitle_no_newline hgood),
        dropCR_renderLine (goodTitle_last hgood), (htr it hit).2.2⟩
  unfold loadTodo
  rw [hsplit, loadFold_append]
  rw [loadFold_active items ([], []) (fun it h => (ha it h).1)]
  rw [loadFold_trash trash _ (fun it h => (htr it h).1)]
  constructor
  · show ((([] : List Item) ++ items.map (fun it => reloaded it it.done)).map triple) = _
    rw [List.nil_append, List.map_map]
    rfl
  · show ((([] : List Item) ++ trash.map (fun it => reloaded it false)).map triple) = _
    rw [List.nil_append, List.map_map]
    apply List.map_congr_left
    intro it hit
    show triple (reloaded it false) = triple it
    unfold triple reloaded
    rw [(htr it hit).2.1]

/-- Well-behaved active items for the round-trip witness. -/
def exGoodActive : List Item :=
  [{ title := "Buy milk", done := false, level := 0, collapsed := false },
   { title := "2%", done := true, level := 1, collapsed := true }]

/-- Well-behaved trash for the round-trip witness. -/
def exGoodTrash : List Item :=
  [{ title := "old task", done := false, level := 0, collapsed := false }]

/-- Witness for the amended C3: the round-trip theorem applied to concrete
well-behaved stores. -/
theorem saveTodo_loadTodo_round_trip_witness :
    (loadTodo (saveTodo exGoodActive exGoodTrash)).1.map triple = exGoodActive.map triple
    ∧ (loadTodo (saveTodo exGoodActive exGoodTrash)).2.map triple = exGoodTrash.map triple :=
  saveTodo_loadTodo_round_trip exGoodActive exGoodTrash (by decide) (by decide)

/-! The interactive model (main.go lines 94-119) restricted to the fields
the tree-state engine reads or writes.  Rendering-only fields (width,
height, viewport, the theme object itself) are omitted; the theme list
enters only through its length, passed to the step function.  Each step
returns the list of saveTodo calls it performs, by their arguments. -/

inductive AppState
  | viewMain
  | viewTrash
  | viewThemeSelector
deriving DecidableEq, Repr

/-- Key messages as dispatched by Update: the special key types the source
switches on, plus runes. -/
inductive Key
  | enter
  | esc
  | backspace
  | space
  | tab
  | up
  | down
  | ctrlC
  | char (c : Char)
deriving DecidableEq, Repr

structure Model where
  items : List Item
  trash : List Item
  visibleItems : List (Nat × Item)
  state : AppState
  quitting : Bool
  inputMode : Bool
  editMode : Bool
  inputBuf : List Char
  cursorMain : Nat
  cursorTrash : Nat
  cursorTheme : Nat
deriving DecidableEq, Repr

/-- Arguments of one saveTodo call (the file name never varies). -/
abbrev SaveCall := List Item × List Item

/-- recalcVisible as a model step (main.go lines 164-187): recompute the
projection and clamp the main cursor.  With machine integers the clamp is
max(0, len-1); with Nat the subtraction already truncates at zero, giving
the same value. -/
def recalcVisibleM (m : Model) : Model :=
  let vis := visibleOf m.items
  { m with visibleItems := vis,
           cursorMain := if vis.length ≤ m.cursorMain then max 0 (vis.length - 1) else m.cursorMain }

/-- The real index under the cursor, computed at the start of updateMain
(main.go lines 291-294); none plays the role of -1.  The source indexes
visibleItems directly and would panic on an out-of-range cursor; the
invariant proved below shows the access is within bounds, so the total
getD faithfully models it on every reachable state. -/
def realIdxOf (m : Model) : Option Nat :=
  if 0 < m.visibleItems.length then some (m.visibleItems.getD m.cursorMain (0, dummyItem)).1
  else none

/-- handleInputCancel (main.go lines 271-288). -/
def handleInputCancel (m : Model) : Model :=
  if m.editMode then
    { m with inputMode := false, editMode := false, inputBuf := [] }
  else
    let realIdx := (m.visibleItems.getD m.cursorMain (0, dummyItem)).1
    let m1 := recalcVisibleM { m with items := m.items.take realIdx ++ m.items.drop (realIdx + 1) }
    let m2 := if 0 < m1.cursorMain then { m1 with cursorMain := m1.cursorMain - 1 } else m1
    { m2 with inputMode := false, inputBuf := [] }

/-- handleInputConfirm (main.go lines 253-269). -/
def handleInputConfirm (m : Model) : Model × List SaveCall :=
  if m.inputBuf.length = 0 ∧ m.editMode = false then
    (handleInputCancel m, [])
  else
    let realIdx := (m.visibleItems.getD m.cursorMain (0, dummyItem)).1
    let items := m.items.set realIdx
      { m.items.getD realIdx dummyItem with title := String.mk m.inputBuf }
    let m1 := recalcVisibleM
      { m with items := items, inputMode := false, editMode := false, inputBuf := [] }
    (m1, [(m1.items, m1.trash)])

/-- Collapse toggle of the v branch (main.go lines 311-322); the Bool
reports whether the node had children and the flag was flipped. -/
def toggleCollapse (items : List Item) (realIdx : Nat) : List Item × Bool :=
  let cur := items.getD realIdx dummyItem
  let hasChildren :=
    match items[realIdx + 1]? with
    | some nxt => decide (cur.level < nxt.level)
    | none => false
  if hasChildren then (items.set realIdx { cur with collapsed := !cur.collapsed }, true)
  else (items, false)

/-- Up movement in the main view (main.go lines 297-300). -/
def mainUp (m : Model) : Model × List SaveCall :=
  ({ m with cursorMain := if 0 < m.cursorMain then m.cursorMain - 1 else m.cursorMain }, [])

/-- Down movement in the main view (main.go lines 301-304). -/
def mainDown (m : Model) : Model × List SaveCall :=
  ({ m with cursorMain := if m.cursorMain < m.visibleItems.length - 1 then m.cursorMain + 1
      else m.cursorMain }, [])

/-- Done toggle (main.go lines 305-310). -/
def mainToggleDone (m : Model) : Model × List SaveCall :=
  match realIdxOf m with
  | some r =>
    let cur := m.items.getD r dummyItem
    let items := m.items.set r { cur with done := !cur.done }
    (recalcVisibleM { m with items := items }, [(items, m.trash)])
  | none => (m, [])

/-- Collapse toggle branch (main.go lines 311-322). -/
def mainToggleCollapse (m : Model) : Model × List SaveCall :=
  match realIdxOf m with
  | some r =>
    let res := toggleCollapse m.items r
    if res.2 then (recalcVisibleM { m with items := res.1 }, []) else (m, [])
  | none => (m, [])

/-- New root node (main.go lines 323-331): append a level-zero node, enter
input mode, put the cursor on the last visible entry. -/
def mainNewRoot (m : Model) : Model × List SaveCall :=
  let items := m.items ++ [{ title := "", done := false, level := 0, collapsed := false }]
  let m1 := recalcVisibleM
    { m with items := items, inputMode := true, editMode := false, inputBuf := [] }
  ({ m1 with cursorMain := m1.visibleItems.length - 1 }, [])

/-- New child node (main.go lines 333-350): reveal the parent, insert a
node one level deeper right after it, enter input mode, move the cursor
one down. -/
def mainNewChild (m : Model) : Model × List SaveCall :=
  match realIdxOf m with
  | some r =>
    let cur := m.items.getD r dummyItem
    let items1 := m.items.set r { cur with collapsed := false }
    let items2 := items1.take (r + 1)
      ++ ({ title := "", done := false, level := cur.level + 1, collapsed := false } : Item)
        :: items1.drop (r + 1)
    let m1 := recalcVisibleM
      { m with items := items2, inputMode := true, editMode := false, inputBuf := [] }
    ({ m1 with cursorMain := m1.cursorMain + 1 }, [])
  | none => (m, [])

/-- Edit title (main.go lines 352-357). -/
def mainEdit (m : Model) : Model × List SaveCall :=
  match realIdxOf m with
  | some r =>
    let buf := (m.items.getD r dummyItem).title.data
    ({ m with inputMode := true, editMode := true, inputBuf := buf }, [])
  | none => (m, [])

/-- Delete subtree to trash (main.go lines 359-384). -/
def mainDelete (m : Model) : Model × List SaveCall :=
  match realIdxOf m with
  | some r =>
    let res := deleteSubtree m.items m.trash r
    let m1 := recalcVisibleM { m with items := res.1, trash := res.2 }
    let m2 := if m1.visibleItems.length ≤ m1.cursorMain ∧ 0 < m1.cursorMain then
        { m1 with cursorMain := m1.cursorMain - 1 } else m1
    (m2, [(res.1, res.2)])
  | none => (m, [])

/-- Binary indent toggle (main.go lines 385-394). -/
def mainIndent (m : Model) : Model × List SaveCall :=
  match realIdxOf m with
  | some r =>
    let cur := m.items.getD r dummyItem
    let items := m.items.set r { cur with level := if cur.level = 0 then 1 else 0 }
    (recalcVisibleM { m with items := items }, [(items, m.trash)])
  | none => (m, [])

/-- Rune dispatch of updateMain (the string switch of main.go lines
296-401 for rune keys). -/
def mainChar (m : Model) (c : Char) : Model × List SaveCall :=
  if c = 'k' then mainUp m
  else if c = 'j' then mainDown m
  else if c = 'v' then mainToggleCollapse m
  else if c = 'n' then mainNewRoot m
  else if c = 'm' then mainNewChild m
  else if c = 'e' then mainEdit m
  else if c = 'd' then mainDelete m
  else if c = 't' then ({ m with state := AppState.viewThemeSelector }, [])
  else if c = 'B' then ({ m with state := AppState.viewTrash, cursorTrash := 0 }, [])
  else (m, [])

/-- updateMain (main.go lines 290-403). -/
def updateMain (m : Model) (k : Key) : Model × List SaveCall :=
  match k with
  | Key.up => mainUp m
  | Key.down => mainDown m
  | Key.space => mainToggleDone m
  | Key.tab => mainIndent m
  | Key.char c => mainChar m c
  | _ => (m, [])

/-- Restore one entry (main.go lines 418-428). -/
def trashRestore (m : Model) : Model × List SaveCall :=
  if 0 < m.trash.length then
    let restored := m.trash.getD m.cursorTrash dummyItem
    let items := m.items ++ [restored]
    let trash := m.trash.take m.cursorTrash ++ m.trash.drop (m.cursorTrash + 1)
    let ct := if trash.length ≤ m.cursorTrash ∧ 0 < m.cursorTrash then m.cursorTrash - 1
      else m.cursorTrash
    (recalcVisibleM { m with items := items, trash := trash, cursorTrash := ct },
     [(items, trash)])
  else (m, [])

/-- Purge one entry (main.go lines 429-436). -/
def trashPurge (m : Model) : Model × List SaveCall :=
  if 0 < m.trash.length then
    let trash := m.trash.take m.cursorTrash ++ m.trash.drop (m.cursorTrash + 1)
    let ct := if trash.length ≤ m.cursorTrash ∧ 0 < m.cursorTrash then m.cursorTrash - 1
      else m.cursorTrash
    ({ m with trash := trash, cursorTrash := ct }, [(m.items, trash)])
  else (m, [])

/-- Trash cursor movement up (main.go lines 410-413). -/
def trashUp (m : Model) : Model × List SaveCall :=
  ({ m with cursorTrash := if 0 < m.cursorTrash then m.cursorTrash - 1 else m.cursorTrash }, [])

/-- Trash cursor movement down (main.go lines 414-417). -/
def trashDown (m : Model) : Model × List SaveCall :=
  ({ m with cursorTrash := if m.cursorTrash < m.trash.length - 1 then m.cursorTrash + 1
      else m.cursorTrash }, [])

/-- Rune dispatch of updateTrash. -/
def trashChar (m : Model) (c : Char) : Model × List SaveCall :=
  if c = 'B' then ({ m with state := AppState.viewMain }, [])
  else if c = 'k' then trashUp m
  else if c = 'j' then trashDown m
  else if c = 'x' then trashPurge m
  else (m, [])

/-- updateTrash (main.go lines 405-439). -/
def updateTrash (m : Model) (k : Key) : Model × List SaveCall :=
  match k with
  | Key.esc => ({ m with state := AppState.viewMain }, [])
  | Key.up => trashUp m
  | Key.down => trashDown m
  | Key.enter => trashRestore m
  | Key.char c => trashChar m c
  | _ => (m, [])

/-- Rune dispatch of updateThemeSelector. -/
def themeChar (nThemes : Nat) (m : Model) (c : Char) : Model × List SaveCall :=
  if c = 'k' then
    ({ m with cursorTheme := if 0 < m.cursorTheme then m.cursorTheme - 1 else m.cursorTheme }, [])
  else if c = 'j' then
    ({ m with cursorTheme := if m.cursorTheme < nThemes - 1 then m.cursorTheme + 1
        else m.cursorTheme }, [])
  else (m, [])

/-- updateThemeSelector (main.go lines 441-459); applying a theme writes
the config file, which is not a saveTodo call. -/
def updateThemeSelector (nThemes : Nat) (m : Model) (k : Key) : Model × List SaveCall :=
  match k with
  | Key.esc => ({ m with state := AppState.viewMain }, [])
  | Key.up =>
    ({ m with cursorTheme := if 0 < m.cursorTheme then m.cursorTheme - 1 else m.cursorTheme }, [])
  | Key.down =>
    ({ m with cursorTheme := if m.cursorTheme < nThemes - 1 then m.cursorTheme + 1
        else m.cursorTheme }, [])
  | Key.enter => ({ m with state := AppState.viewMain }, [])
  | Key.char c => themeChar nThemes m c
  | _ => (m, [])

/-- Update (main.go lines 202-251) for key messages: input-mode keys
first, then the quit keys, then dispatch by view state. -/
def update (nThemes : Nat) (m : Model) (k : Key) : Model × List SaveCall :=
  if m.inputMode then
    match k with
    | Key.enter => handleInputConfirm m
    | Key.esc => (handleInputCancel m, [])
    | Key.backspace =>
      ({ m with inputBuf := if 0 < m.inputBuf.length then m.inputBuf.dropLast else m.inputBuf }, [])
    | Key.space => ({ m with inputBuf := m.inputBuf ++ [' '] }, [])
    | Key.char c => ({ m with inputBuf := m.inputBuf ++ [c] }, [])
    | _ => (m, [])
  else if k = Key.ctrlC ∨ k = Key.char 'q' then
    if m.state ≠ AppState.viewMain then ({ m with state := AppState.viewMain }, [])
    else ({ m with quitting := true }, [])
  else
    match m.state with
    | AppState.viewMain => updateMain m k
    | AppState.viewTrash => updateTrash m k
    | AppState.viewThemeSelector => updateThemeSelector nThemes m k

/-- initialModel (main.go lines 123-162) restricted to the engine fields:
load the stores, start at the main view with both cursors at zero, and
recompute the projection. -/
def initialModel (items trash : List Item) : Model :=
  recalcVisibleM
    { items := items, trash := trash, visibleItems := [], state := AppState.viewMain,
      quitting := false, inputMode := false, editMode := false, inputBuf := [],
      cursorMain := 0, cursorTrash := 0, cursorTheme := 0 }

/-- States the application can be in: the initial model for some loaded
file, closed under key steps. -/
inductive Reachable (nThemes : Nat) : Model → Prop
  | init (items trash : List Item) : Reachable nThemes (initialModel items trash)
  | step (m : Model) (k : Key) : Reachable nThemes m → Reachable nThemes (update nThemes m k).1

/-- Cursor validity: each cursor is inside its sequence, or zero when the
sequence is empty. -/
def CursorOK (m : Model) : Prop :=
  (m.visibleItems = [] → m.cursorMain = 0)
  ∧ (m.visibleItems ≠ [] → m.cursorMain < m.visibleItems.length)
  ∧ (m.trash = [] → m.cursorTrash = 0)
  ∧ (m.trash ≠ [] → m.cursorTrash < m.trash.length)

/-- Step invariant: the cached projection is the projection of the item
store, cursors are valid, and input mode implies a non-empty projection. -/
def Inv (m : Model) : Prop :=
  m.visibleItems = visibleOf m.items ∧ CursorOK m ∧ (m.inputMode = true → m.visibleItems ≠ [])

theorem visibleOf_ne_nil {items : List Item} (h : items ≠ []) : visibleOf items ≠ [] := by
  cases items with
  | nil => exact absurd rfl h
  | cons it rest =>
    show recalcVisibleAux none 0 (it :: rest) ≠ []
    rw [show recalcVisibleAux none 0 (it :: rest)
        = (0, it) :: recalcVisibleAux (if it.collapsed then some it.level else none) 1 rest from by
      show (if skipCheck none it.level then recalcVisibleAux none 1 rest
        else (0, it) :: recalcVisibleAux (if it.collapsed then some it.level else none) 1 rest) = _
      rw [if_neg (by simp [skipCheck])]]
    exact List.cons_ne_nil _ _

theorem recalcVisibleM_vis (m : Model) : (recalcVisibleM m).visibleItems = visibleOf m.items := rfl

theorem recalcVisibleM_cursor_empty (m : Model) (h : visibleOf m.items = []) :
    (recalcVisibleM m).cursorMain = 0 := by
  show (if (visibleOf m.items).length ≤ m.cursorMain then max 0 ((visibleOf m.items).length - 1)
    else m.cursorMain) = 0
  rw [h]
  simp

theorem recalcVisibleM_cursor_lt (m : Model) (h : visibleOf m.items ≠ []) :
    (recalcVisibleM m).cursorMain < (visibleOf m.items).length := by
  have hpos : 0 < (visibleOf m.items).length := List.length_pos.mpr h
  show (if (visibleOf m.items).length ≤ m.cursorMain then max 0 ((visibleOf m.items).length - 1)
    else m.cursorMain) < (visibleOf m.items).length
  by_cases hc : (visibleOf m.items).length ≤ m.cursorMain
  · rw [if_pos hc, Nat.zero_max]
    omega
  · rw [if_neg hc]
    omega

theorem recalcVisibleM_cursor_of_lt (m : Model) (h : m.cursorMain < (visibleOf m.items).length) :
    (recalcVisibleM m).cursorMain = m.cursorMain := by
  show (if (visibleOf m.items).length ≤ m.cursorMain then max 0 ((visibleOf m.items).length - 1)
    else m.cursorMain) = m.cursorMain
  rw [if_neg (by omega)]

/-- Any model that ends its step in recalcVisible satisfies the main-cursor
half of the invariant; the trash half and input-mode condition come from
the caller. -/
theorem inv_of_recalc (m : Model)
    (ht1 : m.trash = [] → m.cursorTrash = 0)
    (ht2 : m.trash ≠ [] → m.cursorTrash < m.trash.length)
    (hin : m.inputMode = true → m.items ≠ []) :
    Inv (recalcVisibleM m) := by
  refine ⟨rfl, ⟨?_, ?_, ht1, ht2⟩, ?_⟩
  · intro h
    exact recalcVisibleM_cursor_empty m h
  · intro h
    exact recalcVisibleM_cursor_lt m h
  · intro h
    show visibleOf m.items ≠ []
    exact visibleOf_ne_nil (hin h)

theorem realIdxOf_pos {m : Model} {r : Nat} (h : realIdxOf m = some r) :
    0 < m.visibleItems.length := by
  unfold realIdxOf at h
  by_cases hp : 0 < m.visibleItems.length
  · exact hp
  · rw [if_neg hp] at h
    exact absurd h (by simp)

theorem realIdxOf_val {m : Model} {r : Nat} (h : realIdxOf m = some r) :
    r = (m.visibleItems.getD m.cursorMain (0, dummyItem)).1 := by
  unfold realIdxOf at h
  by_cases hp : 0 < m.visibleItems.length
  · rw [if_pos hp] at h
    exact (Option.some.injEq _ _ ▸ h).symm
  · rw [if_neg hp] at h
    exact absurd h (by simp)

theorem update_not_input_main (nThemes : Nat) (m : Model) (k : Key)
    (hstate : m.state = AppState.viewMain) (hmode : m.inputMode = false)
    (hq : ¬(k = Key.ctrlC ∨ k = Key.char 'q')) :
    update nThemes m k = updateMain m k := by
  unfold update
  rw [hmode, if_neg (by simp), if_neg hq, hstate]

theorem update_not_input_trash (nThemes : Nat) (m : Model) (k : Key)
    (hstate : m.state = AppState.viewTrash) (hmode : m.inputMode = false)
    (hq : ¬(k = Key.ctrlC ∨ k = Key.char 'q')) :
    update nThemes m k = updateTrash m k := by
  unfold update
  rw [hmode, if_neg (by simp), if_neg hq, hstate]

/-- C4.  The restore branch (enter in the trash view) removes exactly the
single node at the trash cursor and appends it, alone, at the end of the
items, whatever its level: trash shrinks by one, items grow by one. -/
theorem restoreFromTrash_spec (nThemes : Nat) (m : Model)
    (hstate : m.state = AppState.viewTrash) (hmode : m.inputMode = false)
    (hct : m.cursorTrash < m.trash.length) :
    (update nThemes m Key.enter).1.items = m.items ++ [m.trash.getD m.cursorTrash dummyItem]
    ∧ (update nThemes m Key.enter).1.trash
        = m.trash.take m.cursorTrash ++ m.trash.drop (m.cursorTrash + 1)
    ∧ (update nThemes m Key.enter).1.items.length = m.items.length + 1
    ∧ (update nThemes m Key.enter).1.trash.length + 1 = m.trash.length := by
  have hpos : 0 < m.trash.length := by omega
  rw [update_not_input_trash nThemes m Key.enter hstate hmode (by decide)]
  have h2 : updateTrash m Key.enter = trashRestore m := rfl
  rw [h2]
  unfold trashRestore
  rw [if_pos hpos]
  refine ⟨rfl, rfl, ?_, ?_⟩
  · show (m.items ++ [m.trash.getD m.cursorTrash dummyItem]).length = m.items.length + 1
    rw [List.length_append]
    rfl
  · show (m.trash.take m.cursorTrash ++ m.trash.drop (m.cursorTrash + 1)).length + 1
      = m.trash.length
    rw [List.length_append, List.length_take, List.length_drop]
    omega

/-- Concrete trash-view model for the C4 witness. -/
def exModelTrash : Model :=
  { items := [{ title := "A", done := false, level := 0, collapsed := false }],
    trash := [{ title := "B", done := false, level := 1, collapsed := false },
              { title := "C", done := false, level := 2, collapsed := false }],
    visibleItems := [(0, { title := "A", done := false, level := 0, collapsed := false })],
    state := AppState.viewTrash, quitting := false, inputMode := false, editMode := false,
    inputBuf := [], cursorMain := 0, cursorTrash := 0, cursorTheme := 0 }

/-- Witness for C4: restoring the level-1 node B appends it alone to the
items. -/
theorem restoreFromTrash_spec_witness :
    (update 1 exModelTrash Key.enter).1.items
        = exModelTrash.items ++ [exModelTrash.trash.getD exModelTrash.cursorTrash dummyItem]
    ∧ (update 1 exModelTrash Key.enter).1.trash
        = exModelTrash.trash.take exModelTrash.cursorTrash
          ++ exModelTrash.trash.drop (exModelTrash.cursorTrash + 1)
    ∧ (update 1 exModelTrash Key.enter).1.items.length = exModelTrash.items.length + 1
    ∧ (update 1 exModelTrash Key.enter).1.trash.length + 1 = exModelTrash.trash.length :=
  restoreFromTrash_spec 1 exModelTrash rfl rfl (by decide)

theorem saveTodo_triples (items1 items2 trash : List Item)
    (h : items1.map triple = items2.map triple) :
    saveTodo items1 trash = saveTodo items2 trash := by
  unfold saveTodo
  congr 1
  have key : ∀ items : List Item,
      items.map (fun it => renderLine it (doneChar it) ++ ['\n'])
        = (items.map triple).map (fun t => List.replicate (2 * t.2.2) ' '
            ++ ['-', ' ', '[', if t.2.1 then 'x' else ' ', ']', ' '] ++ t.1.data ++ ['\n']) := by
    intro items
    rw [List.map_map]
    rfl
  rw [key items1, key items2, h]

theorem updateMain_v (m : Model) :
    updateMain m (Key.char 'v') = mainToggleCollapse m := by
  show mainChar m 'v' = mainToggleCollapse m
  unfold mainChar
  rw [if_neg (by decide), if_neg (by decide), if_pos rfl]

theorem updateMain_v_log (m : Model) : (updateMain m (Key.char 'v')).2 = [] := by
  rw [updateMain_v]
  unfold mainToggleCollapse
  cases hreal : realIdxOf m with
  | none => rfl
  | some r =>
    show (if (toggleCollapse m.items r).2 then
        (recalcVisibleM { m with items := (toggleCollapse m.items r).1 }, ([] : List SaveCall))
      else (m, [])).2 = []
    by_cases ht : (toggleCollapse m.items r).2
    · rw [if_pos ht]
    · rw [if_neg ht]

theorem updateTrash_v_log (m : Model) : (updateTrash m (Key.char 'v')).2 = [] := by
  show (trashChar m 'v').2 = []
  unfold trashChar
  rw [if_neg (by decide), if_neg (by decide), if_neg (by decide), if_neg (by decide)]

theorem updateTheme_v_log (nThemes : Nat) (m : Model) :
    (updateThemeSelector nThemes m (Key.char 'v')).2 = [] := by
  show (themeChar nThemes m 'v').2 = []
  unfold themeChar
  rw [if_neg (by decide), if_neg (by decide)]

/-- C5 (amended).  The collapse toggle does not persist the collapse
state: the v key never calls saveTodo in any state, and the saveTodo
output depends only on the (title, done, level) triples, so the written
representation cannot record the collapsed flag. -/
theorem toggleCollapse_not_persisted (nThemes : Nat) (m : Model) :
    (update nThemes m (Key.char 'v')).2 = []
    ∧ (∀ items1 items2 trash : List Item, items1.map triple = items2.map triple →
        saveTodo items1 trash = saveTodo items2 trash) := by
  constructor
  · unfold update
    by_cases him : m.inputMode = true
    · rw [him, if_pos rfl]
    · rw [if_neg him]
      by_cases hq : (Key.char 'v' = Key.ctrlC ∨ Key.char 'v' = Key.char 'q')
      · exact absurd hq (by decide)
      · rw [if_neg hq]
        cases hst : m.state
        · exact updateMain_v_log m
        · exact updateTrash_v_log m
        · exact updateTheme_v_log nThemes m
  · exact fun items1 items2 trash h => saveTodo_triples items1 items2 trash h

/-- Concrete main-view model with a collapsible parent under the cursor. -/
def exModelV : Model :=
  { items := [{ title := "A", done := false, level := 0, collapsed := false },
              { title := "B", done := false, level := 1, collapsed := false }],
    trash := [],
    visibleItems := [(0, { title := "A", done := false, level := 0, collapsed := false }),
                     (1, { title := "B", done := false, level := 1, collapsed := false })],
    state := AppState.viewMain, quitting := false, inputMode := false, editMode := false,
    inputBuf := [], cursorMain := 0, cursorTrash := 0, cursorTheme := 0 }

/-- Counterexample for C5 as stated: toggling the collapse flag of A flips
the flag in the store but produces no write at all, and the serialized
representation of the changed store is identical to that of the original,
so the written data does not record the collapsed flag. -/
theorem toggleCollapse_persist_cex :
    (update 1 exModelV (Key.char 'v')).1.items ≠ exModelV.items
    ∧ (update 1 exModelV (Key.char 'v')).1.items.map (fun it => it.collapsed) = [true, false]
    ∧ (update 1 exModelV (Key.char 'v')).2 = []
    ∧ saveTodo (update 1 exModelV (Key.char 'v')).1.items (update 1 exModelV (Key.char 'v')).1.trash
        = saveTodo exModelV.items exModelV.trash := by
  decide

/-- Witness for the amended C5: the toggle step on a concrete model writes
nothing, and two stores differing only in collapse flags serialize
identically. -/
theorem toggleCollapse_not_persisted_witness :
    (update 1 exModelV (Key.char 'v')).2 = []
    ∧ saveTodo [{ title := "A", done := false, level := 0, collapsed := true }] []
        = saveTodo [{ title := "A", done := false, level := 0, collapsed := false }] [] :=
  ⟨(toggleCollapse_not_persisted 1 exModelV).1,
   (toggleCollapse_not_persisted 1 exModelV).2
     [{ title := "A", done := false, level := 0, collapsed := true }]
     [{ title := "A", done := false, level := 0, collapsed := false }] [] (by decide)⟩

/-- C6.  Toggling collapse at a leaf (no immediately-following node of
strictly greater level) is a complete no-op: the model, including the
collapsed flag of the node, is unchanged and nothing is written. -/
theorem toggleCollapse_leaf_noop (nThemes : Nat) (m : Model) (r : Nat)
    (hstate : m.state = AppState.viewMain) (hmode : m.inputMode = false)
    (hreal : realIdxOf m = some r)
    (hleaf : m.items[r + 1]? = none
      ∨ ∃ nxt, m.items[r + 1]? = some nxt ∧ nxt.level ≤ (m.items.getD r dummyItem).level) :
    update nThemes m (Key.char 'v') = (m, []) := by
  rw [update_not_input_main nThemes m _ hstate hmode (by decide), updateMain_v]
  unfold mainToggleCollapse
  rw [hreal]
  have htc : (toggleCollapse m.items r).2 = false := by
    show (if (match m.items[r + 1]? with
        | some nxt => decide ((m.items.getD r dummyItem).level < nxt.level)
        | none => false) = true then
        (m.items.set r
          { m.items.getD r dummyItem with collapsed := !(m.items.getD r dummyItem).collapsed },
         true)
      else (m.items, false)).2 = false
    rcases hleaf with h | ⟨nxt, h, hle⟩
    · rw [h]
      simp
    · rw [h]
      rw [if_neg (by simp only [decide_eq_true_eq]; omega)]
  show (if (toggleCollapse m.items r).2 then
      (recalcVisibleM { m with items := (toggleCollapse m.items r).1 }, ([] : List SaveCall))
    else (m, [])) = (m, [])
  rw [if_neg (by rw [htc]; simp)]

/-- Concrete main-view model whose cursor node is a leaf, for the C6
witness. -/
def exModelLeaf : Model :=
  { items := [{ title := "A", done := false, level := 0, collapsed := false },
              { title := "B", done := false, level := 0, collapsed := false }],
    trash := [],
    visibleItems := [(0, { title := "A", done := false, level := 0, collapsed := false }),
                     (1, { title := "B", done := false, level := 0, collapsed := false })],
    state := AppState.viewMain, quitting := false, inputMode := false, editMode := false,
    inputBuf := [], cursorMain := 0, cursorTrash := 0, cursorTheme := 0 }

/-- Witness for C6: v on a leaf leaves the concrete model untouched. -/
theorem toggleCollapse_leaf_noop_witness :
    update 1 exModelLeaf (Key.char 'v') = (exModelLeaf, []) :=
  toggleCollapse_leaf_noop 1 exModelLeaf 0 rfl rfl (by decide)
    (Or.inr ⟨{ title := "B", done := false, level := 0, collapsed := false }, by decide, by decide⟩)

theorem items_of_cursor_clamp (m1 : Model) (c : Prop) [Decidable c] :
    (if c then { m1 with cursorMain := m1.cursorMain - 1 } else m1).items = m1.items := by
  split
  · rfl
  · rfl

/-- C7.  In the text-input machine, confirming with an empty buffer on a
new-node insertion (editMode false) is redirected to cancel, which removes
the node under the cursor from the items; cancelling an edit of an
existing node (editMode true) only leaves input mode and keeps the items,
hence the title, unchanged. -/
theorem inputConfirm_empty_new_is_cancel (m : Model) (hbuf : m.inputBuf = []) :
    (m.editMode = false → handleInputConfirm m = (handleInputCancel m, [])
      ∧ (handleInputCancel m).items
          = m.items.take (m.visibleItems.getD m.cursorMain (0, dummyItem)).1
            ++ m.items.drop ((m.visibleItems.getD m.cursorMain (0, dummyItem)).1 + 1))
    ∧ (m.editMode = true →
        handleInputCancel m = { m with inputMode := false, editMode := false, inputBuf := [] }
        ∧ (handleInputCancel m).items = m.items) := by
  constructor
  · intro hedit
    constructor
    · unfold handleInputConfirm
      rw [if_pos ⟨by rw [hbuf]; rfl, hedit⟩]
    · unfold handleInputCancel
      rw [if_neg (by rw [hedit]; simp)]
      exact items_of_cursor_clamp _ _
  · intro hedit
    refine ⟨?_, ?_⟩
    · unfold handleInputCancel
      rw [if_pos hedit]
    · unfold handleInputCancel
      rw [if_pos hedit]

/-- Fresh-insertion input state for the C7 witness: new empty node at the
end, empty buffer, not an edit. -/
def exModelNew : Model :=
  { items := [{ title := "A", done := false, level := 0, collapsed := false },
              { title := "", done := false, level := 0, collapsed := false }],
    trash := [],
    visibleItems := [(0, { title := "A", done := false, level := 0, collapsed := false }),
                     (1, { title := "", done := false, level := 0, collapsed := false })],
    state := AppState.viewMain, quitting := false, inputMode := true, editMode := false,
    inputBuf := [], cursorMain := 1, cursorTrash := 0, cursorTheme := 0 }

/-- Edit input state with an emptied buffer for the C7 witness. -/
def exModelEdit : Model :=
  { items := [{ title := "A", done := false, level := 0, collapsed := false }],
    trash := [],
    visibleItems := [(0, { title := "A", done := false, level := 0, collapsed := false })],
    state := AppState.viewMain, quitting := false, inputMode := true, editMode := true,
    inputBuf := [], cursorMain := 0, cursorTrash := 0, cursorTheme := 0 }

/-- Witness for C7: on the concrete fresh-insertion state the empty
confirm equals cancel and deletes the new node; on the concrete edit state
cancel keeps the items. -/
theorem inputConfirm_empty_new_is_cancel_witness :
    handleInputConfirm exModelNew = (handleInputCancel exModelNew, [])
    ∧ (handleInputCancel exModelNew).items
        = [{ title := "A", done := false, level := 0, collapsed := false }]
    ∧ handleInputCancel exModelEdit
        = { exModelEdit with inputMode := false, editMode := false, inputBuf := [] }
    ∧ (handleInputCancel exModelEdit).items = exModelEdit.items := by
  refine ⟨((inputConfirm_empty_new_is_cancel exModelNew rfl).1 rfl).1, ?_,
    ((inputConfirm_empty_new_is_cancel exModelEdit rfl).2 rfl).1,
    ((inputConfirm_empty_new_is_cancel exModelEdit rfl).2 rfl).2⟩
  rw [((inputConfirm_empty_new_is_cancel exModelNew rfl).1 rfl).2]
  decide

/-! Invariant preservation for every key step, towards the cursor-validity
claim and the input-mode indexing-safety claim. -/

theorem inv_mainUp (m : Model) (h : Inv m) : Inv (mainUp m).1 := by
  obtain ⟨hsync, ⟨h1, h2, h3, h4⟩, hin⟩ := h
  refine ⟨hsync, ⟨?_, ?_, h3, h4⟩, fun hm => hin hm⟩
  · intro he
    show (if 0 < m.cursorMain then m.cursorMain - 1 else m.cursorMain) = 0
    rw [h1 he]
    simp
  · intro hne
    show (if 0 < m.cursorMain then m.cursorMain - 1 else m.cursorMain) < m.visibleItems.length
    have := h2 hne
    split <;> omega

theorem inv_mainDown (m : Model) (h : Inv m) : Inv (mainDown m).1 := by
  obtain ⟨hsync, ⟨h1, h2, h3, h4⟩, hin⟩ := h
  refine ⟨hsync, ⟨?_, ?_, h3, h4⟩, fun hm => hin hm⟩
  · intro he
    show (if m.cursorMain < m.visibleItems.length - 1 then m.cursorMain + 1 else m.cursorMain) = 0
    have he2 : m.visibleItems = [] := he
    have hz := h1 he2
    have hlen : m.visibleItems.length = 0 := by rw [he2]; rfl
    rw [if_neg (by omega), hz]
  · intro hne
    show (if m.cursorMain < m.visibleItems.length - 1 then m.cursorMain + 1 else m.cursorMain)
      < m.visibleItems.length
    have := h2 hne
    split <;> omega

theorem inv_mainToggleDone (m : Model) (h : Inv m) (hmode : m.inputMode = false) :
    Inv (mainToggleDone m).1 := by
  obtain ⟨hsync, ⟨h1, h2, h3, h4⟩, hin⟩ := h
  unfold mainToggleDone
  cases hreal : realIdxOf m with
  | none => exact ⟨hsync, ⟨h1, h2, h3, h4⟩, hin⟩
  | some r =>
    exact inv_of_recalc _ h3 h4 (fun hm => absurd hm (by simp [hmode]))

theorem inv_mainIndent (m : Model) (h : Inv m) (hmode : m.inputMode = false) :
    Inv (mainIndent m).1 := by
  obtain ⟨hsync, ⟨h1, h2, h3, h4⟩, hin⟩ := h
  unfold mainIndent
  cases hreal : realIdxOf m with
  | none => exact ⟨hsync, ⟨h1, h2, h3, h4⟩, hin⟩
  | some r =>
    exact inv_of_recalc _ h3 h4 (fun hm => absurd hm (by simp [hmode]))

theorem inv_mainToggleCollapse (m : Model) (h : Inv m) (hmode : m.inputMode = false) :
    Inv (mainToggleCollapse m).1 := by
  obtain ⟨hsync, ⟨h1, h2, h3, h4⟩, hin⟩ := h
  unfold mainToggleCollapse
  cases hreal : realIdxOf m with
  | none => exact ⟨hsync, ⟨h1, h2, h3, h4⟩, hin⟩
  | some r =>
    show Inv ((if (toggleCollapse m.items r).2 then
        (recalcVisibleM { m with items := (toggleCollapse m.items r).1 }, ([] : List SaveCall))
      else (m, [])).1)
    split
    · exact inv_of_recalc _ h3 h4 (fun hm => absurd hm (by simp [hmode]))
    · exact ⟨hsync, ⟨h1, h2, h3, h4⟩, hin⟩

theorem inv_mainEdit (m : Model) (h : Inv m) : Inv (mainEdit m).1 := by
  obtain ⟨hsync, ⟨h1, h2, h3, h4⟩, hin⟩ := h
  unfold mainEdit
  cases hreal : realIdxOf m with
  | none => exact ⟨hsync, ⟨h1, h2, h3, h4⟩, hin⟩
  | some r =>
    refine ⟨hsync, ⟨h1, h2, h3, h4⟩, fun _ => ?_⟩
    have := realIdxOf_pos hreal
    intro he
    rw [he] at this
    exact absurd this (by simp)

theorem inv_mainNewRoot (m : Model) (h : Inv m) : Inv (mainNewRoot m).1 := by
  obtain ⟨hsync, ⟨h1, h2, h3, h4⟩, hin⟩ := h
  unfold mainNewRoot
  have hne : visibleOf (m.items ++ [{ title := "", done := false, level := 0, collapsed := false }])
      ≠ [] := visibleOf_ne_nil (by simp)
  have hpos : 0 < (visibleOf
      (m.items ++ [{ title := "", done := false, level := 0, collapsed := false }])).length :=
    List.length_pos.mpr hne
  refine ⟨rfl, ⟨?_, ?_, h3, h4⟩, fun _ => hne⟩
  · intro he
    exact absurd he hne
  · intro _
    show (visibleOf (m.items ++ [{ title := "", done := false, level := 0, collapsed := false }])).length - 1
      < (visibleOf (m.items ++ [{ title := "", done := false, level := 0, collapsed := false }])).length
    omega

theorem recalcVisibleAux_cons_emit (cl : Option Nat) (i : Nat) (it : Item) (rest : List Item)
    (hskip : skipCheck cl it.level = false) :
    recalcVisibleAux cl i (it :: rest)
      = (i, it) :: recalcVisibleAux (if it.collapsed then some it.level else none) (i + 1) rest := by
  show (if skipCheck cl it.level then recalcVisibleAux cl (i + 1) rest
    else (i, it) :: recalcVisibleAux (if it.collapsed then some it.level else none) (i + 1) rest) = _
  rw [if_neg (by rw [hskip]; simp)]

theorem recalcVisibleAux_cons_skip (cl : Option Nat) (i : Nat) (it : Item) (rest : List Item)
    (hskip : skipCheck cl it.level = true) :
    recalcVisibleAux cl i (it :: rest) = recalcVisibleAux cl (i + 1) rest := by
  show (if skipCheck cl it.level then recalcVisibleAux cl (i + 1) rest
    else (i, it) :: recalcVisibleAux (if it.collapsed then some it.level else none) (i + 1) rest) = _
  rw [if_pos hskip]

/-- Decomposition of the projection at a valid cursor: the cursor entry is
a valid pair into the items, the prefix of the projection before it has
exactly cursor entries, and the entry itself is emitted (not skipped) by
the loop state reached after its prefix. -/
theorem visibleOf_cursor_decomp (items : List Item) (cursor : Nat)
    (hc : cursor < (visibleOf items).length) :
    ∃ p : Nat × Item,
      (visibleOf items).getD cursor (0, dummyItem) = p
      ∧ p.1 < items.length
      ∧ items.getD p.1 dummyItem = p.2
      ∧ (recalcVisibleAux none 0 (items.take p.1)).length = cursor
      ∧ skipCheck (clAfter none (items.take p.1)) p.2.level = false := by
  have hpe : (visibleOf items)[cursor]? = some ((visibleOf items).getD cursor (0, dummyItem)) := by
    rw [List.getD_eq_getElem?_getD, List.getElem?_eq_getElem hc]
    rfl
  set p := (visibleOf items).getD cursor (0, dummyItem) with hpdef
  have hmem : p ∈ visibleOf items := List.getElem?_mem hpe
  have hpair : items[p.1]? = some p.2 := visibleOf_pairs hmem
  have hrlt : p.1 < items.length := visibleOf_index_lt hmem
  have hcur : items.getD p.1 dummyItem = p.2 := by
    rw [List.getD_eq_getElem?_getD, hpair]
    rfl
  have hlen : (items.take p.1).length = p.1 := by
    rw [List.length_take]
    omega
  have hdecomp : items.take p.1 ++ p.2 :: items.drop (p.1 + 1) = items := by
    have hd : items.drop p.1 = p.2 :: items.drop (p.1 + 1) := by
      rw [List.drop_eq_getElem_cons hrlt]
      obtain ⟨h5, h6⟩ := List.getElem?_eq_some.mp hpair
      rw [h6]
    rw [← hd, List.take_append_drop]
  have hsplit1 : visibleOf items
      = recalcVisibleAux none 0 (items.take p.1)
        ++ recalcVisibleAux (clAfter none (items.take p.1)) p.1
            (p.2 :: items.drop (p.1 + 1)) := by
    have happ := recalcVisibleAux_append (items.take p.1) (p.2 :: items.drop (p.1 + 1)) none 0
    rw [hdecomp, hlen, Nat.zero_add] at happ
    exact happ
  have hskipf : skipCheck (clAfter none (items.take p.1)) p.2.level = false := by
    cases hsk : skipCheck (clAfter none (items.take p.1)) p.2.level
    · rfl
    · exfalso
      have heq := recalcVisibleAux_cons_skip (clAfter none (items.take p.1)) p.1 p.2
        (items.drop (p.1 + 1)) hsk
      rw [hsplit1, heq] at hmem
      rcases List.mem_append.mp hmem with hA | hB
      · have := recalcVisibleAux_fst_bounds _ none 0 p hA
        omega
      · have := recalcVisibleAux_fst_bounds _ _ (p.1 + 1) p hB
        omega
  have hemit := recalcVisibleAux_cons_emit (clAfter none (items.take p.1)) p.1 p.2
    (items.drop (p.1 + 1)) hskipf
  have hAlen : (recalcVisibleAux none 0 (items.take p.1)).length = cursor := by
    rw [hsplit1, hemit] at hpe
    by_cases hlt : cursor < (recalcVisibleAux none 0 (items.take p.1)).length
    · exfalso
      rw [List.getElem?_append_left hlt] at hpe
      have hm2 := List.getElem?_mem hpe
      have := recalcVisibleAux_fst_bounds _ none 0 p hm2
      omega
    · by_cases heq2 : cursor = (recalcVisibleAux none 0 (items.take p.1)).length
      · omega
      · exfalso
        rw [List.getElem?_append_right (by omega)] at hpe
        have h7 : cursor - (recalcVisibleAux none 0 (items.take p.1)).length
            = (cursor - (recalcVisibleAux none 0 (items.take p.1)).length - 1) + 1 := by omega
        rw [h7, List.getElem?_cons_succ] at hpe
        have hm2 := List.getElem?_mem hpe
        have := recalcVisibleAux_fst_bounds _ _ (p.1 + 1) p hm2
        omega
  exact ⟨p, rfl, hrlt, hcur, hAlen, hskipf⟩

theorem newChild_result_inv (m : Model) (items2 : List Item)
    (h3 : m.trash = [] → m.cursorTrash = 0) (h4 : m.trash ≠ [] → m.cursorTrash < m.trash.length)
    (hkey : m.cursorMain + 1 < (visibleOf items2).length) :
    Inv { recalcVisibleM { m with items := items2, inputMode := true, editMode := false, inputBuf := [] }
          with cursorMain :=
            (recalcVisibleM { m with items := items2, inputMode := true, editMode := false, inputBuf := [] }).cursorMain + 1 } := by
  have hlt0 : ({ m with items := items2, inputMode := true, editMode := false, inputBuf := [] } : Model).cursorMain
      < (visibleOf ({ m with items := items2, inputMode := true, editMode := false, inputBuf := [] } : Model).items).length := by
    show m.cursorMain < (visibleOf items2).length
    omega
  have hnn : visibleOf items2 ≠ [] := by
    intro he
    have hlenz := congrArg List.length he
    simp only [List.length_nil] at hlenz
    omega
  refine ⟨rfl, ⟨?_, ?_, h3, h4⟩, fun _ => hnn⟩
  · intro he
    exact absurd he hnn
  · intro _
    show (recalcVisibleM { m with items := items2, inputMode := true, editMode := false, inputBuf := [] }).cursorMain + 1
      < (visibleOf items2).length
    rw [recalcVisibleM_cursor_of_lt _ hlt0]
    exact hkey

theorem inv_mainNewChild (m : Model) (h : Inv m) : Inv (mainNewChild m).1 := by
  obtain ⟨hsync, ⟨h1, h2, h3, h4⟩, hin⟩ := h
  unfold mainNewChild
  cases hreal : realIdxOf m with
  | none => exact ⟨hsync, ⟨h1, h2, h3, h4⟩, hin⟩
  | some r =>
    have hpos := realIdxOf_pos hreal
    have hvne : m.visibleItems ≠ [] := by
      intro he
      rw [he] at hpos
      exact absurd hpos (by simp)
    have hc : m.cursorMain < (visibleOf m.items).length := by
      rw [← hsync]
      exact h2 hvne
    obtain ⟨p, hpd, hrlt, hcur, hAlen, hskipf⟩ := visibleOf_cursor_decomp m.items m.cursorMain hc
    have hrp : r = p.1 := by
      rw [realIdxOf_val hreal, hsync, hpd]
    subst hrp
    have hlentake : (m.items.take p.1).length = p.1 := by
      rw [List.length_take]
      omega
    have hitems1 : m.items.set p.1 { m.items.getD p.1 dummyItem with collapsed := false }
        = m.items.take p.1 ++ { p.2 with collapsed := false } :: m.items.drop (p.1 + 1) := by
      rw [hcur, List.set_eq_take_append_cons_drop, if_pos hrlt]
    have hassoc : m.items.take p.1 ++ { p.2 with collapsed := false } :: m.items.drop (p.1 + 1)
        = (m.items.take p.1 ++ [{ p.2 with collapsed := false }]) ++ m.items.drop (p.1 + 1) := by
      simp
    have htake2 : (m.items.set p.1 { m.items.getD p.1 dummyItem with collapsed := false }).take (p.1 + 1)
        = m.items.take p.1 ++ [{ p.2 with collapsed := false }] := by
      rw [hitems1, hassoc]
      exact List.take_left' (by rw [List.length_append, hlentake]; rfl)
    have hdrop2 : (m.items.set p.1 { m.items.getD p.1 dummyItem with collapsed := false }).drop (p.1 + 1)
        = m.items.drop (p.1 + 1) := by
      rw [hitems1, hassoc]
      exact List.drop_left' (by rw [List.length_append, hlentake]; rfl)
    have hitems2 : (m.items.set p.1 { m.items.getD p.1 dummyItem with collapsed := false }).take (p.1 + 1)
        ++ ({ title := "", done := false, level := (m.items.getD p.1 dummyItem).level + 1,
              collapsed := false } : Item)
          :: (m.items.set p.1 { m.items.getD p.1 dummyItem with collapsed := false }).drop (p.1 + 1)
        = m.items.take p.1 ++ { p.2 with collapsed := false }
          :: ({ title := "", done := false, level := p.2.level + 1, collapsed := false } : Item)
          :: m.items.drop (p.1 + 1) := by
      rw [htake2, hdrop2, hcur]
      simp
    have hvis2 : visibleOf (m.items.take p.1 ++ { p.2 with collapsed := false }
        :: ({ title := "", done := false, level := p.2.level + 1, collapsed := false } : Item)
        :: m.items.drop (p.1 + 1))
        = recalcVisibleAux none 0 (m.items.take p.1)
          ++ (p.1, { p.2 with collapsed := false })
            :: (p.1 + 1, { title := "", done := false, level := p.2.level + 1, collapsed := false })
            :: recalcVisibleAux none (p.1 + 2) (m.items.drop (p.1 + 1)) := by
      have happ := recalcVisibleAux_append (m.items.take p.1)
        ({ p.2 with collapsed := false }
          :: ({ title := "", done := false, level := p.2.level + 1, collapsed := false } : Item)
          :: m.items.drop (p.1 + 1)) none 0
      rw [hlentake, Nat.zero_add] at happ
      unfold visibleOf
      rw [happ]
      have hskipf2 : skipCheck (clAfter none (m.items.take p.1))
          ({ p.2 with collapsed := false } : Item).level = false := hskipf
      rw [recalcVisibleAux_cons_emit _ _ _ _ hskipf2]
      have hskipchild : skipCheck
          (if ({ p.2 with collapsed := false } : Item).collapsed
            then some ({ p.2 with collapsed := false } : Item).level else none)
          ({ title := "", done := false, level := p.2.level + 1, collapsed := false } : Item).level
          = false := rfl
      rw [recalcVisibleAux_cons_emit _ _ _ _ hskipchild]
      rfl
    have hkey : m.cursorMain + 1 < (visibleOf (m.items.take p.1 ++ { p.2 with collapsed := false }
        :: ({ title := "", done := false, level := p.2.level + 1, collapsed := false } : Item)
        :: m.items.drop (p.1 + 1))).length := by
      rw [hvis2, List.length_append, hAlen]
      simp only [List.length_cons]
      omega
    have hkey2 : m.cursorMain + 1 < (visibleOf
        ((m.items.set p.1 { m.items.getD p.1 dummyItem with collapsed := false }).take (p.1 + 1)
          ++ ({ title := "", done := false, level := (m.items.getD p.1 dummyItem).level + 1,
                collapsed := false } : Item)
            :: (m.items.set p.1 { m.items.getD p.1 dummyItem with collapsed := false }).drop (p.1 + 1))).length := by
      rw [hitems2]
      exact hkey
    exact newChild_result_inv m _ h3 h4 hkey2

theorem inv_clamp_dec (m1 : Model) (h : Inv m1) :
    Inv (if m1.visibleItems.length ≤ m1.cursorMain ∧ 0 < m1.cursorMain then
      { m1 with cursorMain := m1.cursorMain - 1 } else m1) := by
  obtain ⟨hs, ⟨hc1, hc2, hc3, hc4⟩, hi⟩ := h
  by_cases hcond : m1.visibleItems.length ≤ m1.cursorMain ∧ 0 < m1.cursorMain
  · rw [if_pos hcond]
    exfalso
    cases hv : m1.visibleItems with
    | nil =>
      have := hc1 hv
      omega
    | cons a l =>
      have := hc2 (by rw [hv]; exact List.cons_ne_nil a l)
      omega
  · rw [if_neg hcond]
    exact ⟨hs, ⟨hc1, hc2, hc3, hc4⟩, hi⟩

theorem inv_mainDelete (m : Model) (h : Inv m) (hmode : m.inputMode = false) :
    Inv (mainDelete m).1 := by
  obtain ⟨hsync, ⟨h1, h2, h3, h4⟩, hin⟩ := h
  unfold mainDelete
  cases hreal : realIdxOf m with
  | none => exact ⟨hsync, ⟨h1, h2, h3, h4⟩, hin⟩
  | some r =>
    obtain ⟨X, hX⟩ : ∃ X, (deleteSubtree m.items m.trash r).2 = m.trash ++ X := by
      unfold deleteSubtree
      cases m.items[r]? with
      | none => exact ⟨[], by simp⟩
      | some cur => exact ⟨_, rfl⟩
    have ht1' : (deleteSubtree m.items m.trash r).2 = [] → m.cursorTrash = 0 := by
      intro he
      rw [hX] at he
      exact h3 (List.append_eq_nil.mp he).1
    have ht2' : (deleteSubtree m.items m.trash r).2 ≠ [] → m.cursorTrash
        < (deleteSubtree m.items m.trash r).2.length := by
      intro hne
      rw [hX, List.length_append]
      by_cases htr : m.trash = []
      · have hz := h3 htr
        have hX2 : 0 < X.length := by
          rw [hX, htr] at hne
          exact List.length_pos.mpr (by simpa using hne)
        omega
      · have := h4 htr
        omega
    have hm1 : Inv (recalcVisibleM { m with items := (deleteSubtree m.items m.trash r).1, trash := (deleteSubtree m.items m.trash r).2 }) :=
      inv_of_recalc _ ht1' ht2' (fun hm => absurd hm (by simp [hmode]))
    exact inv_clamp_dec _ hm1

theorem inv_updateMain (m : Model) (k : Key) (h : Inv m) (hmode : m.inputMode = false) :
    Inv (updateMain m k).1 := by
  cases k with
  | up => exact inv_mainUp m h
  | down => exact inv_mainDown m h
  | space => exact inv_mainToggleDone m h hmode
  | tab => exact inv_mainIndent m h hmode
  | enter => exact h
  | esc => exact h
  | backspace => exact h
  | ctrlC => exact h
  | char c =>
    show Inv (mainChar m c).1
    unfold mainChar
    split_ifs
    · exact inv_mainUp m h
    · exact inv_mainDown m h
    · exact inv_mainToggleCollapse m h hmode
    · exact inv_mainNewRoot m h
    · exact inv_mainNewChild m h
    · exact inv_mainEdit m h
    · exact inv_mainDelete m h hmode
    · obtain ⟨hsync, hcur, hin⟩ := h
      exact ⟨hsync, hcur, fun hm => hin hm⟩
    · obtain ⟨hsync, ⟨h1, h2, h3, h4⟩, hin⟩ := h
      refine ⟨hsync, ⟨h1, h2, fun _ => rfl, fun hne => ?_⟩, fun hm => hin hm⟩
      show 0 < m.trash.length
      exact List.length_pos.mpr hne
    · exact h

theorem inv_trashUp (m : Model) (h : Inv m) : Inv (trashUp m).1 := by
  obtain ⟨hsync, ⟨h1, h2, h3, h4⟩, hin⟩ := h
  refine ⟨hsync, ⟨h1, h2, ?_, ?_⟩, fun hm => hin hm⟩
  · intro he
    show (if 0 < m.cursorTrash then m.cursorTrash - 1 else m.cursorTrash) = 0
    rw [h3 he]
    simp
  · intro hne
    show (if 0 < m.cursorTrash then m.cursorTrash - 1 else m.cursorTrash) < m.trash.length
    have := h4 hne
    split <;> omega

theorem inv_trashDown (m : Model) (h : Inv m) : Inv (trashDown m).1 := by
  obtain ⟨hsync, ⟨h1, h2, h3, h4⟩, hin⟩ := h
  refine ⟨hsync, ⟨h1, h2, ?_, ?_⟩, fun hm => hin hm⟩
  · intro he
    show (if m.cursorTrash < m.trash.length - 1 then m.cursorTrash + 1 else m.cursorTrash) = 0
    have he2 : m.trash = [] := he
    have hz := h3 he2
    have hlen : m.trash.length = 0 := by rw [he2]; rfl
    rw [if_neg (by omega), hz]
  · intro hne
    show (if m.cursorTrash < m.trash.length - 1 then m.cursorTrash + 1 else m.cursorTrash)
      < m.trash.length
    have := h4 hne
    split <;> omega

theorem inv_trashRestore (m : Model) (h : Inv m) (hmode : m.inputMode = false) :
    Inv (trashRestore m).1 := by
  obtain ⟨hsync, ⟨h1, h2, h3, h4⟩, hin⟩ := h
  unfold trashRestore
  by_cases hpos : 0 < m.trash.length
  · rw [if_pos hpos]
    have hct : m.cursorTrash < m.trash.length := h4 (List.length_pos.mp hpos)
    have hlen' : (m.trash.take m.cursorTrash ++ m.trash.drop (m.cursorTrash + 1)).length
        = m.trash.length - 1 := by
      rw [List.length_append, List.length_take, List.length_drop]
      omega
    apply inv_of_recalc
    · intro he
      have hlz : (m.trash.take m.cursorTrash ++ m.trash.drop (m.cursorTrash + 1)).length = 0 := by
        rw [show (m.trash.take m.cursorTrash ++ m.trash.drop (m.cursorTrash + 1)) = [] from he]
        rfl
      have hz : m.cursorTrash = 0 := by omega
      show (if (m.trash.take m.cursorTrash ++ m.trash.drop (m.cursorTrash + 1)).length ≤ m.cursorTrash
          ∧ 0 < m.cursorTrash then m.cursorTrash - 1 else m.cursorTrash) = 0
      rw [if_neg (by omega), hz]
    · intro hne
      have hpos2 : 0 < (m.trash.take m.cursorTrash ++ m.trash.drop (m.cursorTrash + 1)).length :=
        List.length_pos.mpr hne
      show (if (m.trash.take m.cursorTrash ++ m.trash.drop (m.cursorTrash + 1)).length ≤ m.cursorTrash
          ∧ 0 < m.cursorTrash then m.cursorTrash - 1 else m.cursorTrash)
        < (m.trash.take m.cursorTrash ++ m.trash.drop (m.cursorTrash + 1)).length
      by_cases hcond : (m.trash.take m.cursorTrash ++ m.trash.drop (m.cursorTrash + 1)).length ≤ m.cursorTrash
          ∧ 0 < m.cursorTrash
      · rw [if_pos hcond]
        omega
      · rw [if_neg hcond]
        omega
    · intro hm
      exact absurd hm (by simp [hmode])
  · rw [if_neg hpos]
    exact ⟨hsync, ⟨h1, h2, h3, h4⟩, hin⟩

theorem inv_trashPurge (m : Model) (h : Inv m) : Inv (trashPurge m).1 := by
  obtain ⟨hsync, ⟨h1, h2, h3, h4⟩, hin⟩ := h
  unfold trashPurge
  by_cases hpos : 0 < m.trash.length
  · rw [if_pos hpos]
    have hct : m.cursorTrash < m.trash.length := h4 (List.length_pos.mp hpos)
    have hlen' : (m.trash.take m.cursorTrash ++ m.trash.drop (m.cursorTrash + 1)).length
        = m.trash.length - 1 := by
      rw [List.length_append, List.length_take, List.length_drop]
      omega
    refine ⟨hsync, ⟨h1, h2, ?_, ?_⟩, fun hm => hin hm⟩
    · intro he
      have hlz : (m.trash.take m.cursorTrash ++ m.trash.drop (m.cursorTrash + 1)).length = 0 := by
        rw [show (m.trash.take m.cursorTrash ++ m.trash.drop (m.cursorTrash + 1)) = [] from he]
        rfl
      have hz : m.cursorTrash = 0 := by omega
      show (if (m.trash.take m.cursorTrash ++ m.trash.drop (m.cursorTrash + 1)).length ≤ m.cursorTrash
          ∧ 0 < m.cursorTrash then m.cursorTrash - 1 else m.cursorTrash) = 0
      rw [if_neg (by omega), hz]
    · intro hne
      have hpos2 : 0 < (m.trash.take m.cursorTrash ++ m.trash.drop (m.cursorTrash + 1)).length :=
        List.length_pos.mpr hne
      show (if (m.trash.take m.cursorTrash ++ m.trash.drop (m.cursorTrash + 1)).length ≤ m.cursorTrash
          ∧ 0 < m.cursorTrash then m.cursorTrash - 1 else m.cursorTrash)
        < (m.trash.take m.cursorTrash ++ m.trash.drop (m.cursorTrash + 1)).length
      by_cases hcond : (m.trash.take m.cursorTrash ++ m.trash.drop (m.cursorTrash + 1)).length ≤ m.cursorTrash
          ∧ 0 < m.cursorTrash
      · rw [if_pos hcond]
        omega
      · rw [if_neg hcond]
        omega
  · rw [if_neg hpos]
    exact ⟨hsync, ⟨h1, h2, h3, h4⟩, hin⟩

theorem inv_updateTrash (m : Model) (k : Key) (h : Inv m) (hmode : m.inputMode = false) :
    Inv (updateTrash m k).1 := by
  cases k with
  | esc =>
    obtain ⟨hsync, hcur, hin⟩ := h
    exact ⟨hsync, hcur, fun hm => hin hm⟩
  | up => exact inv_trashUp m h
  | down => exact inv_trashDown m h
  | enter => exact inv_trashRestore m h hmode
  | char c =>
    show Inv (trashChar m c).1
    unfold trashChar
    split_ifs
    · obtain ⟨hsync, hcur, hin⟩ := h
      exact ⟨hsync, hcur, fun hm => hin hm⟩
    · exact inv_trashUp m h
    · exact inv_trashDown m h
    · exact inv_trashPurge m h
    · exact h
  | _ => exact h

theorem inv_updateTheme (nThemes : Nat) (m : Model) (k : Key) (h : Inv m) :
    Inv (updateThemeSelector nThemes m k).1 := by
  obtain ⟨hsync, hcur, hin⟩ := h
  cases k with
  | esc => exact ⟨hsync, hcur, fun hm => hin hm⟩
  | up => exact ⟨hsync, hcur, fun hm => hin hm⟩
  | down => exact ⟨hsync, hcur, fun hm => hin hm⟩
  | enter => exact ⟨hsync, hcur, fun hm => hin hm⟩
  | char c =>
    show Inv (themeChar nThemes m c).1
    unfold themeChar
    split_ifs
    all_goals exact ⟨hsync, hcur, hin⟩
  | _ => exact ⟨hsync, hcur, hin⟩

theorem inv_cancel_tail (m1 : Model)
    (hv : m1.visibleItems = visibleOf m1.items)
    (he0 : m1.visibleItems = [] → m1.cursorMain = 0)
    (hlt : m1.visibleItems ≠ [] → m1.cursorMain < m1.visibleItems.length)
    (h3 : m1.trash = [] → m1.cursorTrash = 0)
    (h4 : m1.trash ≠ [] → m1.cursorTrash < m1.trash.length) :
    Inv { (if 0 < m1.cursorMain then { m1 with cursorMain := m1.cursorMain - 1 } else m1) with
      inputMode := false, inputBuf := [] } := by
  by_cases hc : 0 < m1.cursorMain
  · rw [if_pos hc]
    refine ⟨hv, ⟨?_, ?_, h3, h4⟩, fun hm => absurd hm (by simp)⟩
    · intro he
      have := he0 he
      omega
    · intro hne
      have := hlt hne
      show m1.cursorMain - 1 < m1.visibleItems.length
      omega
  · rw [if_neg hc]
    exact ⟨hv, ⟨he0, hlt, h3, h4⟩, fun hm => absurd hm (by simp)⟩

theorem inv_handleInputCancel (m : Model) (h : Inv m) : Inv (handleInputCancel m) := by
  obtain ⟨hsync, ⟨h1, h2, h3, h4⟩, hin⟩ := h
  unfold handleInputCancel
  by_cases hedit : m.editMode = true
  · rw [if_pos hedit]
    exact ⟨hsync, ⟨h1, h2, h3, h4⟩, fun hm => absurd hm (by simp)⟩
  · rw [if_neg hedit]
    exact inv_cancel_tail
      (recalcVisibleM { m with items := m.items.take (m.visibleItems.getD m.cursorMain (0, dummyItem)).1 ++ m.items.drop ((m.visibleItems.getD m.cursorMain (0, dummyItem)).1 + 1) })
      rfl (recalcVisibleM_cursor_empty _) (recalcVisibleM_cursor_lt _) h3 h4

theorem inv_handleInputConfirm (m : Model) (h : Inv m) : Inv (handleInputConfirm m).1 := by
  unfold handleInputConfirm
  by_cases hcond : (m.inputBuf.length = 0 ∧ m.editMode = false)
  · rw [if_pos hcond]
    exact inv_handleInputCancel m h
  · rw [if_neg hcond]
    obtain ⟨hsync, ⟨h1, h2, h3, h4⟩, hin⟩ := h
    exact inv_of_recalc _ h3 h4 (fun hm => absurd hm (by simp))

theorem update_preserves_inv (nThemes : Nat) (m : Model) (k : Key) (h : Inv m) :
    Inv (update nThemes m k).1 := by
  unfold update
  by_cases him : m.inputMode = true
  · rw [if_pos him]
    obtain ⟨hsync, hcur, hin⟩ := h
    cases k with
    | enter => exact inv_handleInputConfirm m ⟨hsync, hcur, hin⟩
    | esc => exact inv_handleInputCancel m ⟨hsync, hcur, hin⟩
    | backspace => exact ⟨hsync, hcur, fun _ => hin him⟩
    | space => exact ⟨hsync, hcur, fun _ => hin him⟩
    | char c => exact ⟨hsync, hcur, fun _ => hin him⟩
    | tab => exact ⟨hsync, hcur, hin⟩
    | up => exact ⟨hsync, hcur, hin⟩
    | down => exact ⟨hsync, hcur, hin⟩
    | ctrlC => exact ⟨hsync, hcur, hin⟩
  · rw [if_neg him]
    have hmode : m.inputMode = false := by
      cases hm : m.inputMode
      · rfl
      · exact absurd hm him
    by_cases hq : (k = Key.ctrlC ∨ k = Key.char 'q')
    · rw [if_pos hq]
      obtain ⟨hsync, hcur, hin⟩ := h
      by_cases hs : m.state ≠ AppState.viewMain
      · rw [if_pos hs]
        exact ⟨hsync, hcur, fun hm => hin hm⟩
      · rw [if_neg hs]
        exact ⟨hsync, hcur, fun hm => hin hm⟩
    · rw [if_neg hq]
      cases hst : m.state
      · exact inv_updateMain m k h hmode
      · exact inv_updateTrash m k h hmode
      · exact inv_updateTheme nThemes m k h

theorem inv_initialModel (items trash : List Item) : Inv (initialModel items trash) := by
  unfold initialModel
  apply inv_of_recalc
  · intro _
    rfl
  · intro hne
    show 0 < trash.length
    exact List.length_pos.mpr hne
  · intro hm
    exact absurd hm (by simp)

theorem reachable_inv (nThemes : Nat) (m : Model) (h : Reachable nThemes m) : Inv m := by
  induction h with
  | init items trash => exact inv_initialModel items trash
  | step m0 k _ ih => exact update_preserves_inv nThemes m0 k ih

/-- C8: Cursor validity invariant.  On any state whose cached projection
is in sync and whose cursors are valid (the invariant every reachable
state satisfies), one step of update for any key leaves the main cursor
inside [0, visibleItems.length - 1] (or 0 when the visible sequence is
empty) and the trash cursor inside [0, trash.length - 1] (or 0 when the
trash is empty); in particular every shrinking operation re-clamps. -/
theorem update_cursors_clamped (nThemes : Nat) (m : Model) (k : Key) (h : Inv m) :
    CursorOK (update nThemes m k).1 :=
  (update_preserves_inv nThemes m k h).2.1

def exModelC8 : Model :=
  { items := [{ title := "a", done := false, level := 0, collapsed := false },
      { title := "b", done := false, level := 0, collapsed := false }],
    trash := [{ title := "t", done := false, level := 0, collapsed := false }],
    visibleItems := visibleOf [{ title := "a", done := false, level := 0, collapsed := false },
      { title := "b", done := false, level := 0, collapsed := false }],
    state := AppState.viewMain, quitting := false, inputMode := false, editMode := false,
    inputBuf := [], cursorMain := 1, cursorTrash := 0, cursorTheme := 0 }

theorem update_cursors_clamped_witness :
    Inv exModelC8 ∧ CursorOK (update 3 exModelC8 (Key.char 'd')).1 :=
  ⟨by unfold Inv CursorOK exModelC8; decide,
   update_cursors_clamped 3 exModelC8 (Key.char 'd') (by unfold Inv CursorOK exModelC8; decide)⟩

/-- C10: Input-mode indexing safety.  On every reachable state with
inputMode set, the visible projection is non-empty, the main cursor is a
valid index into it, and the real index stored at the cursor is a valid
index into the item store, so the visibleItems[cursorMain] accesses of
handleInputConfirm and handleInputCancel are in bounds. -/
theorem inputMode_access_safe (nThemes : Nat) (m : Model) (h : Reachable nThemes m)
    (hm : m.inputMode = true) :
    m.visibleItems ≠ [] ∧ m.cursorMain < m.visibleItems.length
      ∧ (m.visibleItems.getD m.cursorMain (0, dummyItem)).1 < m.items.length := by
  obtain ⟨hsync, ⟨h1, h2, h3, h4⟩, hin⟩ := reachable_inv nThemes m h
  have hne : m.visibleItems ≠ [] := hin hm
  have hlt : m.cursorMain < m.visibleItems.length := h2 hne
  refine ⟨hne, hlt, ?_⟩
  have hg : m.visibleItems.getD m.cursorMain (0, dummyItem)
      = m.visibleItems[m.cursorMain] := by
    rw [List.getD_eq_getElem?_getD, List.getElem?_eq_getElem hlt]
    rfl
  have hmem : m.visibleItems[m.cursorMain] ∈ visibleOf m.items := by
    rw [← hsync]
    exact List.getElem_mem hlt
  rw [hg]
  exact visibleOf_index_lt hmem

theorem inputMode_access_safe_witness :
    (update 3 (initialModel [] []) (Key.char 'n')).1.inputMode = true
      ∧ ((update 3 (initialModel [] []) (Key.char 'n')).1.visibleItems ≠ []
        ∧ (update 3 (initialModel [] []) (Key.char 'n')).1.cursorMain
            < (update 3 (initialModel [] []) (Key.char 'n')).1.visibleItems.length
        ∧ ((update 3 (initialModel [] []) (Key.char 'n')).1.visibleItems.getD
            (update 3 (initialModel [] []) (Key.char 'n')).1.cursorMain (0, dummyItem)).1
            < (update 3 (initialModel [] []) (Key.char 'n')).1.items.length) :=
  ⟨by decide,
   inputMode_access_safe 3 (update 3 (initialModel [] []) (Key.char 'n')).1
     (Reachable.step (initialModel [] []) (Key.char 'n') (Reachable.init [] []))
     (by decide)⟩

end Todo
